import Mathlib

/-!
Shallow embedding of the sequential section reconstructor in
`src/accountable_evidence_selection/src/parsing/pdf_to_text_grobid_LangChain.py`.

Documents (`Doc`) model the LangChain document objects consumed by
`process_sequential_sections`: the metadata fields actually read by the code
(`pages`, `para`, `section_title`, each via `metadata.get` with a default and
hence modelled as `Option String`) and the raw `page_content` string.

Python specifics modelled explicitly:
* `str.strip()` / `\s` use the ASCII whitespace class (the repository's data
  is ASCII; unicode whitespace is out of scope of the embedding);
* `int(...)` on a string follows CPython: optional surrounding whitespace,
  optional sign, digits with single underscores allowed between digit groups;
  it fails (raises `ValueError`) otherwise, which the embedding models with
  `Option`;
* float threshold comparisons (`ratio > 0.7`, `count > len * 0.3`) are
  replaced by the exact integer comparisons `10 * num > 7 * den` and
  `10 * count > 3 * len`; for the magnitudes reachable here (list lengths far
  below 2^50) the double-precision evaluation and the exact rational
  comparison agree, because the distance of the exact ratio from the
  threshold is at least 1/(10*den), far above the rounding error;
* regular-expression searches are unfolded into explicit scans; the character
  classes used (`\s`, `\d`, `[A-Z]`) are disjoint, so the greedy scans below
  are equivalent to the backtracking semantics of `re`.
-/

/-- Whitespace class of Python's `str.strip` and `\s` (ASCII part). -/
def isPySpace (c : Char) : Bool :=
  c = ' ' || c = '\t' || c = '\n' || c = '\r' || c = '\x0b' || c = '\x0c'

/-- Left-and-right trim on the character list, Python `str.strip()`. -/
def pyStripL (l : List Char) : List Char :=
  ((l.dropWhile isPySpace).reverse.dropWhile isPySpace).reverse

/-- Python `str.strip()`. -/
def pyStrip (s : String) : String :=
  String.mk (pyStripL s.data)

/-- Python `s.split('\n')`: split at every newline, keeping empty pieces. -/
def splitNl : List Char → List (List Char)
  | [] => [[]]
  | c :: rest =>
    if c = '\n' then [] :: splitNl rest
    else
      match splitNl rest with
      | g :: gs => (c :: g) :: gs
      | [] => [[c]]

/-- Numeric value of an ASCII digit. -/
def digitVal (c : Char) : Nat := c.toNat - 48

/-- Digit-run accumulator for `int(...)` on a digit string. -/
def natOfDigits (l : List Char) : Nat :=
  l.foldl (fun n c => 10 * n + digitVal c) 0

/-- First maximal digit run of a string: the first element that Python
`re.findall` with pattern `\d+` would return. -/
def firstDigitRun : List Char → Option (List Char)
  | [] => none
  | c :: rest =>
    if c.isDigit then some (c :: rest.takeWhile Char.isDigit)
    else firstDigitRun rest

/-- Translation of `extract_page_number` (string branch; the `tuple` branch
of the Python function is unreachable for string metadata): first embedded
integer of the `pages` string, defaulting to `0`. -/
def extract_page_number (pages_str : String) : Nat :=
  match firstDigitRun pages_str.data with
  | some ds => natOfDigits ds
  | none => 0

/-- Digit part of CPython `int(...)`: digits with single underscores allowed
between digit groups (PEP 515), nothing else. -/
def pyDigitsAux : List Char → Nat → Option Nat
  | [], acc => some acc
  | '_' :: c :: rest, acc =>
    if c.isDigit then pyDigitsAux rest (10 * acc + digitVal c) else none
  | ['_'], _ => none
  | c :: rest, acc =>
    if c.isDigit then pyDigitsAux rest (10 * acc + digitVal c) else none

/-- Digit-group form required by CPython `int(...)` after sign stripping. -/
def pyDigits : List Char → Option Nat
  | [] => none
  | c :: rest => if c.isDigit then pyDigitsAux rest (digitVal c) else none

/-- CPython `int(s)` for strings: `some` the parsed value, `none` when the
call raises `ValueError`. -/
def pyInt (s : String) : Option Int :=
  match pyStripL s.data with
  | '+' :: rest => (pyDigits rest).map Int.ofNat
  | '-' :: rest => (pyDigits rest).map (fun n => -(n : Int))
  | rest => (pyDigits rest).map Int.ofNat

/-- Consume one-or-more characters of class `p` (regex `p+`), returning the
remainder; `none` when the first character is not of the class. -/
def reqRun (p : Char → Bool) : List Char → Option (List Char)
  | [] => none
  | c :: rest => if p c then some (rest.dropWhile p) else none

/-- Match a literal tag at the head of the list, returning the remainder. -/
def afterTag : List Char → List Char → Option (List Char)
  | [], l => some l
  | _ :: _, [] => none
  | a :: as, b :: bs => if a = b then afterTag as bs else none

/-- Head-anchored test for `tag` followed by `\s+\d`. -/
def tagWsDigitHere (tag : List Char) (l : List Char) : Bool :=
  match afterTag tag l with
  | some r =>
    match reqRun isPySpace r with
    | some (c :: _) => c.isDigit
    | _ => false
  | none => false

/-- Search (`re.search`) for `tag` followed by `\s+\d` anywhere. -/
def containsTagWsDigit (tag : List Char) : List Char → Bool
  | [] => false
  | c :: rest => tagWsDigitHere tag (c :: rest) || containsTagWsDigit tag rest

/-- Head-anchored literal-substring test. -/
def startsWithChars : List Char → List Char → Bool
  | [], _ => true
  | _ :: _, [] => false
  | a :: as, b :: bs => a = b && startsWithChars as bs

/-- Substring search, Python `needle in hay`. -/
def containsChars (needle : List Char) : List Char → Bool
  | [] => startsWithChars needle []
  | c :: rest => startsWithChars needle (c :: rest) || containsChars needle rest

/-- Test `p` at every line start of the list (`re.MULTILINE` anchor `^`). -/
def anyLineStartAux (p : List Char → Bool) : List Char → Bool
  | [] => false
  | c :: rest => (c = '\n' && p rest) || anyLineStartAux p rest

/-- Search with a `^`-anchored pattern under `re.MULTILINE`. -/
def anyLineStart (p : List Char → Bool) (l : List Char) : Bool :=
  p l || anyLineStartAux p l

/-- Line-start match of `\s*\d+\s+\d+\s+\d+` ("number sequences"). -/
def num3Here (l : List Char) : Bool :=
  match reqRun Char.isDigit (l.dropWhile isPySpace) with
  | none => false
  | some l1 =>
    match reqRun isPySpace l1 with
    | none => false
    | some l2 =>
      match reqRun Char.isDigit l2 with
      | none => false
      | some l3 =>
        match reqRun isPySpace l3 with
        | none => false
        | some l4 =>
          match reqRun Char.isDigit l4 with
          | none => false
          | some _ => true

/-- Line-start match of `\s*[A-Z]\s+[A-Z]\s+[A-Z]` ("letter sequences"). -/
def cap3Here (l : List Char) : Bool :=
  match l.dropWhile isPySpace with
  | [] => false
  | c :: rest =>
    c.isUpper &&
      match reqRun isPySpace rest with
      | some (c2 :: rest2) =>
        c2.isUpper &&
          match reqRun isPySpace rest2 with
          | some (c3 :: _) => c3.isUpper
          | _ => false
      | _ => false

/-- Translation of `is_table_content`.  The first two regex patterns
(`\|\s*` and `\s+\|\s+`) jointly reduce to "some pipe character occurs"
because `\s*` may be empty and the second pattern only fires on strings that
already contain a pipe. -/
def is_table_content (content : String) : Bool :=
  content.data.contains '|' ||
  containsTagWsDigit ['T', 'a', 'b', 'l', 'e'] content.data ||
  anyLineStart num3Here content.data ||
  anyLineStart cap3Here content.data ||
  (let lines := splitNl content.data
   decide (lines.length > 2) &&
     decide (10 * (lines.filter (fun line => line.contains '|')).length >
       3 * lines.length))

/-- Translation of `is_figure_content` (case-insensitive searches, modelled
by ASCII-lowercasing both sides). -/
def is_figure_content (content : String) : Bool :=
  let lc := content.data.map Char.toLower
  containsTagWsDigit ['f', 'i', 'g', 'u', 'r', 'e'] lc ||
  containsTagWsDigit ['f', 'i', 'g', '.'] lc ||
  containsChars ['[', 'f', 'i', 'g', 'u', 'r', 'e'] lc ||
  containsChars ['[', 'i', 'm', 'a', 'g', 'e'] lc ||
  containsChars ['[', 'g', 'r', 'a', 'p', 'h'] lc ||
  containsChars ['[', 'c', 'h', 'a', 'r', 't'] lc

/-- Line-start match of `^\s*\d`, the per-line `re.match` with pattern
`^\s*\d+` inside `is_purely_tabular`. -/
def startsDigitAfterSpace (line : List Char) : Bool :=
  match line.dropWhile isPySpace with
  | c :: _ => c.isDigit
  | [] => false

/-- Translation of `is_purely_tabular`: pipe-containing lines plus
digit-leading lines (a line may be counted in both tallies), measured against
the number of non-blank lines; vacuously tabular when every line is blank. -/
def is_purely_tabular (content : String) : Bool :=
  let lines := splitNl content.data
  let pipe_lines := (lines.filter (fun line => line.contains '|')).length
  let number_lines := (lines.filter startsDigitAfterSpace).length
  let total_lines := (lines.filter (fun line => pyStripL line ≠ [])).length
  if total_lines = 0 then true
  else decide (10 * (pipe_lines + number_lines) > 7 * total_lines)

/-- Metadata-plus-content of one LangChain document as read by the script:
the metadata keys `pages`, `para` and `section_title` (each accessed through
`metadata.get` with a default) and `doc.page_content`.  `none` models an
absent metadata key. -/
structure Doc where
  pages : Option String
  para : Option String
  section_title : Option String
  page_content : String
deriving DecidableEq, Repr

/-- Output dictionary of the script, with the exact keys it populates. -/
structure Sect where
  title : String
  content : String
  page : Nat
  paragraph : String
  content_length : Nat
  type : String
deriving DecidableEq, Repr

/-- Open-paragraph state `current_paragraph`, a dictionary holding the keys
`metadata` and `content_parts` (the separate `paragraph_buffer` variable
always aliases `content_parts`, so it is not modelled separately). -/
structure ParaBuf where
  metadata : Doc
  content_parts : List String
deriving DecidableEq, Repr

/-- Translation of `determine_section_type`. -/
def determine_section_type (metadata : Doc) (content : String) : String :=
  let section_title := metadata.section_title.getD ""
  if section_title ≠ "" ∧ section_title ≠ "None" then
    if (pyStrip content).length < 200 ∧
        containsChars ((pyStrip content).data.map Char.toLower)
          (section_title.data.map Char.toLower) = true then "header"
    else "paragraph"
  else if is_table_content content then "table"
  else if is_figure_content content then "figure"
  else "paragraph"

/-- Translation of `should_continue_paragraph`.  The `int(...)` calls cannot
raise here: `process_sequential_sections` has already sorted with `int` on
every `para` field, so the guarded model uses the parsed value directly. -/
def should_continue_paragraph (current_metadata : Doc)
    (previous_paragraph : Option ParaBuf) : Bool :=
  match previous_paragraph with
  | none => false
  | some prev =>
    let prev_metadata := prev.metadata
    let current_page := extract_page_number (current_metadata.pages.getD "0")
    let prev_page := extract_page_number (prev_metadata.pages.getD "0")
    let current_para := (pyInt (current_metadata.para.getD "0")).getD 0
    let prev_para := (pyInt (prev_metadata.para.getD "0")).getD 0
    if current_page = prev_page ∧ current_para = prev_para + 1 then true
    else if current_page = prev_page + 1 ∧ current_para = 1 then true
    else false

/-- Translation of `should_include_content`. -/
def should_include_content (section_type : String) (content : String) : Bool :=
  if section_type = "header" ∨ section_type = "paragraph" then true
  else if section_type = "table" ∨ section_type = "figure" then
    decide ((pyStrip content).length > 50) && !(is_purely_tabular content)
  else false

/-- Whitespace-run collapsing: `re.sub` replacing every maximal `\s+` run
by one blank. -/
def collapseWsAux : Bool → List Char → List Char
  | _, [] => []
  | prevSpace, c :: rest =>
    if isPySpace c then
      if prevSpace then collapseWsAux true rest
      else ' ' :: collapseWsAux true rest
    else c :: collapseWsAux false rest

/-- Whitespace-run collapsing on strings. -/
def collapseWs (s : String) : String :=
  String.mk (collapseWsAux false s.data)

/-- Translation of `clean_section_title`; `not title` is Python falsiness of
a string, i.e. emptiness. -/
def clean_section_title (title : String) : String :=
  if title = "" ∨ title = "None" then "Unknown Section"
  else collapseWs (pyStrip title)

/-- Translation of `create_paragraph_section`. -/
def create_paragraph_section (paragraph_data : ParaBuf) : Sect :=
  let metadata := paragraph_data.metadata
  let content := String.intercalate " " paragraph_data.content_parts
  { title := clean_section_title (metadata.section_title.getD "Paragraph")
    content := content
    page := extract_page_number (metadata.pages.getD "0")
    paragraph := metadata.para.getD "0"
    content_length := content.length
    type := "paragraph" }

/-- Section dictionary built inline for non-paragraph content at lines
158-166 of the script. -/
def mkNonParaSection (metadata : Doc) (content : String)
    (section_type : String) : Sect :=
  { title := clean_section_title (metadata.section_title.getD "Unknown")
    content := content
    page := extract_page_number (metadata.pages.getD "0")
    paragraph := metadata.para.getD "0"
    content_length := content.length
    type := section_type }

/-- Duplicate-detection key
`f"{extract_page_number(pages)}_{para}_{content[:50]}"`. -/
def section_id (metadata : Doc) (content : String) : String :=
  toString (extract_page_number (metadata.pages.getD "0")) ++ "_" ++
    metadata.para.getD "0" ++ "_" ++ String.mk (content.data.take 50)

/-- Sort key of `sorted(docs, key=lambda x: (extract_page_number(...),
int(...)))`; `none` when the `int` call raises. -/
def sortKey (d : Doc) : Option (Nat × Int) :=
  (pyInt (d.para.getD "0")).map
    (fun p => (extract_page_number (d.pages.getD "0"), p))

/-- Total variant of the sort key; agrees with `sortKey` whenever the latter
succeeds, which `process_sequential_sections` guarantees before sorting. -/
def keyOf (d : Doc) : Nat × Int :=
  (extract_page_number (d.pages.getD "0"), (pyInt (d.para.getD "0")).getD 0)

/-- Lexicographic order on sort keys, as Python compares the tuples. -/
def keyLE (a b : Nat × Int) : Prop :=
  a.1 < b.1 ∨ (a.1 = b.1 ∧ a.2 ≤ b.2)

instance (a b : Nat × Int) : Decidable (keyLE a b) := by
  unfold keyLE; infer_instance

/-- Document comparison used for the stable sort. -/
def docLE (a b : Doc) : Prop := keyLE (keyOf a) (keyOf b)

instance (a b : Doc) : Decidable (docLE a b) := by
  unfold docLE; infer_instance

instance : IsTotal Doc docLE :=
  ⟨fun a b => by unfold docLE keyLE; omega⟩

instance : IsTrans Doc docLE :=
  ⟨fun a b c => by unfold docLE keyLE; omega⟩

/-- Python `sorted(docs, key=...)`: a stable ascending sort.  Mathlib's
insertion sort with a total `≤` relation is exactly such a sort (an element
is inserted before the first element not below it, so ties keep input
order). -/
def sortDocs (docs : List Doc) : List Doc :=
  List.insertionSort docLE docs

/-- Loop state of `process_sequential_sections`. -/
structure PassState where
  sequential_sections : List Sect
  current_paragraph : Option ParaBuf
  seen_sections : List String
deriving DecidableEq, Repr

/-- Emission of the open paragraph buffer, used at every close point. -/
def flushBuf : Option ParaBuf → List Sect
  | some buf => [create_paragraph_section buf]
  | none => []

/-- Loop body of `process_sequential_sections` for one document. -/
def processDoc (st : PassState) (doc : Doc) : PassState :=
  let content := pyStrip doc.page_content
  if content = "" then st
  else
    let section_type := determine_section_type doc content
    let sid := section_id doc content
    if st.seen_sections.contains sid then st
    else
      let st := { st with seen_sections := st.seen_sections ++ [sid] }
      if section_type = "paragraph" then
        if should_continue_paragraph doc st.current_paragraph then
          match st.current_paragraph with
          | some buf =>
            { st with current_paragraph := some ⟨doc, buf.content_parts ++ [content]⟩ }
          | none =>
            { st with current_paragraph := some ⟨doc, [content]⟩ }
        else
          { st with
            sequential_sections := st.sequential_sections ++ flushBuf st.current_paragraph
            current_paragraph := some ⟨doc, [content]⟩ }
      else
        let st := { st with
          sequential_sections := st.sequential_sections ++ flushBuf st.current_paragraph
          current_paragraph := none }
        if should_include_content section_type content then
          { st with sequential_sections := st.sequential_sections ++
              [mkNonParaSection doc content section_type] }
        else st

/-- Pass of `process_sequential_sections` after the sort succeeded. -/
def run_pass (docs : List Doc) : List Sect :=
  let final := (sortDocs docs).foldl processDoc ⟨[], none, []⟩
  final.sequential_sections ++ flushBuf final.current_paragraph

/-- Translation of `process_sequential_sections`.  `sorted` evaluates the
key (and hence `int(para)`) on every document before anything is emitted, so
a single malformed `para` raises and nothing is produced: that is the `none`
case. -/
def process_sequential_sections (docs : List Doc) : Option (List Sect) :=
  (docs.mapM sortKey).map (fun _ => run_pass docs)

/-! ### Instrumented pass

The pass below repeats `processDoc` verbatim while additionally recording,
for every emitted section, the list of (position, document) pairs of the
sorted input it was built from, and the positions of the documents that were
skipped (blank text), dropped as duplicates, or dropped as low-content
table/figure noise.  `eraseStep_eq`/`run_pass_eq_iSections` below prove that
forgetting the instrumentation recovers `processDoc`/`run_pass` exactly, so
every statement about the instrumented pass is a statement about
`process_sequential_sections`. -/

/-- Open-paragraph buffer with its constituent documents. -/
structure IParaBuf where
  metadata : Doc
  content_parts : List String
  cons : List (Nat × Doc)
deriving DecidableEq, Repr

/-- Emitted section with its constituent documents. -/
structure ISection where
  sec : Sect
  cons : List (Nat × Doc)
deriving DecidableEq, Repr

/-- Instrumented loop state. -/
structure IPassState where
  sections : List ISection
  current : Option IParaBuf
  seen : List String
  empties : List Nat
  dups : List Nat
  noise : List Nat
deriving Repr

/-- Forget the constituents of a buffer. -/
def eraseBuf (b : IParaBuf) : ParaBuf := ⟨b.metadata, b.content_parts⟩

/-- Forget the instrumentation of the loop state. -/
def eraseSt (st : IPassState) : PassState :=
  ⟨st.sections.map ISection.sec, st.current.map eraseBuf, st.seen⟩

/-- Instrumented emission of the open paragraph buffer. -/
def flushI : Option IParaBuf → List ISection
  | some b => [⟨create_paragraph_section (eraseBuf b), b.cons⟩]
  | none => []

/-- Instrumented loop body; identical branching to `processDoc`. -/
def iStep (st : IPassState) (x : Nat × Doc) : IPassState :=
  let doc := x.2
  let content := pyStrip doc.page_content
  if content = "" then { st with empties := st.empties ++ [x.1] }
  else
    let section_type := determine_section_type doc content
    let sid := section_id doc content
    if st.seen.contains sid then { st with dups := st.dups ++ [x.1] }
    else
      let st := { st with seen := st.seen ++ [sid] }
      if section_type = "paragraph" then
        if should_continue_paragraph doc (st.current.map eraseBuf) then
          match st.current with
          | some buf =>
            { st with current := some ⟨doc, buf.content_parts ++ [content], buf.cons ++ [x]⟩ }
          | none =>
            { st with current := some ⟨doc, [content], [x]⟩ }
        else
          { st with
            sections := st.sections ++ flushI st.current
            current := some ⟨doc, [content], [x]⟩ }
      else
        let st := { st with
          sections := st.sections ++ flushI st.current
          current := none }
        if should_include_content section_type content then
          { st with sections := st.sections ++ [⟨mkNonParaSection doc content section_type, [x]⟩] }
        else { st with noise := st.noise ++ [x.1] }

/-- Instrumented run over the position-tagged sorted documents. -/
def iProcessAll (docs : List Doc) : IPassState :=
  ((sortDocs docs).enum).foldl iStep ⟨[], none, [], [], [], []⟩

/-- Instrumented emitted sections, final buffer flush included. -/
def iSections (docs : List Doc) : List ISection :=
  (iProcessAll docs).sections ++ flushI (iProcessAll docs).current

/-- Minimum of a list of sort keys in the lexicographic order (`none` for
the empty list). -/
def keyMin : List (Nat × Int) → Option (Nat × Int)
  | [] => none
  | k :: ks => some (ks.foldl (fun a b => if keyLE a b then a else b) k)

/-- Modelled from the words of claim C7 only (for comparison with the
source-translated `is_purely_tabular`): among the non-blank lines, the
fraction of lines that either contain a pipe character or start with a digit
exceeds 0.7. -/
def purelyTabularSpec (content : String) : Bool :=
  let nonBlank := (splitNl content.data).filter (fun line => pyStripL line ≠ [])
  let good := nonBlank.filter
    (fun line => line.contains '|' ||
      (match line with | c :: _ => c.isDigit | [] => false))
  decide (10 * good.length > 7 * nonBlank.length)

/-- Constituents of the open buffer, if any. -/
def bufCons : Option IParaBuf → List (Nat × Doc)
  | some b => b.cons
  | none => []

/-- All constituents accounted for so far: emitted sections then the open
buffer. -/
def consFlat (st : IPassState) : List (Nat × Doc) :=
  (st.sections.map ISection.cons).flatten ++ bufCons st.current

/-- Stripped text of a position-tagged document. -/
def fragText (p : Nat × Doc) : String := pyStrip p.2.page_content

/-- Shape of every emitted instrumented section: nonempty constituent list,
content assembled from the constituent texts in order, metadata taken from
the last constituent (paragraph case) resp. the only constituent
(header/table/figure case). -/
def SecOK (S : ISection) : Prop :=
  S.cons ≠ [] ∧
  S.sec.content = String.intercalate " " (S.cons.map fragText) ∧
  (S.sec.type = "paragraph" →
    ∃ q, S.cons.getLast? = some q ∧
      S.sec.page = extract_page_number (q.2.pages.getD "0") ∧
      S.sec.title = clean_section_title (q.2.section_title.getD "Paragraph")) ∧
  (S.sec.type ≠ "paragraph" →
    ∃ q, S.cons = [q] ∧
      S.sec = mkNonParaSection q.2 (pyStrip q.2.page_content)
        (determine_section_type q.2 (pyStrip q.2.page_content)))

/-- Loop invariant of the instrumented pass over the processed prefix. -/
structure PassInv (processed : List (Nat × Doc)) (st : IPassState) : Prop where
  sub : (consFlat st).Sublist processed
  perm : ((consFlat st).map Prod.fst ++ st.empties ++ st.dups ++ st.noise).Perm
    (processed.map Prod.fst)
  seen_iff : ∀ k, k ∈ st.seen ↔
    ∃ p ∈ processed, pyStrip p.2.page_content ≠ "" ∧
      section_id p.2 (pyStrip p.2.page_content) = k
  buf : ∀ b, st.current = some b →
    (∃ q, b.cons.getLast? = some q ∧ b.metadata = q.2) ∧
    b.content_parts = b.cons.map fragText ∧ b.cons ≠ []
  secs : ∀ S ∈ st.sections, SecOK S
  empties_eq : st.empties =
    (processed.filter (fun p => pyStrip p.2.page_content = "")).map Prod.fst
  dups_spec : ∀ i ∈ st.dups, ∃ l1 e l2 d l3,
    processed = l1 ++ e :: l2 ++ (i, d) :: l3 ∧
    pyStrip e.2.page_content ≠ "" ∧ pyStrip d.page_content ≠ "" ∧
    section_id e.2 (pyStrip e.2.page_content) = section_id d (pyStrip d.page_content)
  noise_spec : ∀ i ∈ st.noise, ∃ p ∈ processed, p.1 = i ∧
    (determine_section_type p.2 (pyStrip p.2.page_content) = "table" ∨
     determine_section_type p.2 (pyStrip p.2.page_content) = "figure") ∧
    should_include_content (determine_section_type p.2 (pyStrip p.2.page_content))
      (pyStrip p.2.page_content) = false ∧
    pyStrip p.2.page_content ≠ ""

/-! ### Basic facts about the string helpers -/

theorem dropWhile_self_of_head (p : Char → Bool) (l : List Char)
    (h : ∀ c, l.head? = some c → p c = false) : l.dropWhile p = l := by
  cases l with
  | nil => rfl
  | cons a t =>
    have := h a rfl
    simp [List.dropWhile_cons, this]

theorem head_dropWhile_false (p : Char → Bool) (l : List Char) :
    ∀ c, (l.dropWhile p).head? = some c → p c = false := by
  induction l with
  | nil => intro c hc; simp at hc
  | cons a t ih =>
    intro c hc
    by_cases hp : p a
    · rw [List.dropWhile_cons, if_pos hp] at hc
      exact ih c hc
    · rw [List.dropWhile_cons, if_neg hp] at hc
      simp at hc
      rw [hc] at hp
      simpa using hp

theorem dropWhile_suffix_decomp (p : Char → Bool) (l : List Char) :
    ∃ t, l = t ++ l.dropWhile p := by
  induction l with
  | nil => exact ⟨[], rfl⟩
  | cons a t ih =>
    by_cases hp : p a
    · obtain ⟨u, hu⟩ := ih
      refine ⟨a :: u, ?_⟩
      rw [List.dropWhile_cons, if_pos hp]
      simpa using hu
    · exact ⟨[], by rw [List.dropWhile_cons, if_neg hp]; rfl⟩

theorem pyStripL_head (l : List Char) :
    ∀ c, (pyStripL l).head? = some c → isPySpace c = false := by
  intro c hc
  unfold pyStripL at hc
  set A := l.dropWhile isPySpace with hA
  set X := A.reverse.dropWhile isPySpace with hX
  obtain ⟨t, ht⟩ := dropWhile_suffix_decomp isPySpace A.reverse
  have hArev : A = X.reverse ++ t.reverse := by
    have := congrArg List.reverse ht
    simpa [List.reverse_append] using this
  cases hXr : X.reverse with
  | nil => rw [hXr] at hc; simp at hc
  | cons d xs =>
    rw [hXr] at hc
    simp at hc
    have hheadA : A.head? = some d := by
      rw [hArev, hXr]; rfl
    rw [← hc]
    exact head_dropWhile_false isPySpace l d hheadA

theorem pyStripL_last (l : List Char) :
    ∀ c, (pyStripL l).getLast? = some c → isPySpace c = false := by
  intro c hc
  unfold pyStripL at hc
  rw [List.getLast?_reverse] at hc
  exact head_dropWhile_false isPySpace _ c hc

theorem pyStripL_fix_of (l : List Char)
    (h1 : ∀ c, l.head? = some c → isPySpace c = false)
    (h2 : ∀ c, l.getLast? = some c → isPySpace c = false) : pyStripL l = l := by
  unfold pyStripL
  rw [dropWhile_self_of_head isPySpace l h1]
  rw [dropWhile_self_of_head isPySpace l.reverse (by simpa using h2)]
  exact List.reverse_reverse l

theorem pyStripL_idem (l : List Char) : pyStripL (pyStripL l) = pyStripL l :=
  pyStripL_fix_of _ (pyStripL_head l) (pyStripL_last l)

theorem pyStrip_idem (s : String) : pyStrip (pyStrip s) = pyStrip s := by
  unfold pyStrip
  exact congrArg String.mk (pyStripL_idem s.data)

theorem intercalate_single (s : String) : String.intercalate " " [s] = s := rfl

theorem collapseWsAux_true_eq_nil (l : List Char)
    (h : collapseWsAux true l = []) : ∀ c ∈ l, isPySpace c = true := by
  induction l with
  | nil => intro c hc; simp at hc
  | cons a t ih =>
    intro c hc
    by_cases ha : isPySpace a
    · rw [show collapseWsAux true (a :: t) = collapseWsAux true t from by
        simp [collapseWsAux, ha]] at h
      rcases List.mem_cons.mp hc with hc | hc
      · exact hc ▸ ha
      · exact ih h c hc
    · rw [show collapseWsAux true (a :: t) = a :: collapseWsAux false t from by
        simp [collapseWsAux, ha]] at h
      simp at h

theorem collapseWsAux_true_head (l : List Char) :
    ∀ c, (collapseWsAux true l).head? = some c → isPySpace c = false := by
  induction l with
  | nil => intro c hc; simp [collapseWsAux] at hc
  | cons a t ih =>
    intro c hc
    by_cases ha : isPySpace a
    · rw [show collapseWsAux true (a :: t) = collapseWsAux true t from by
        simp [collapseWsAux, ha]] at hc
      exact ih c hc
    · rw [show collapseWsAux true (a :: t) = a :: collapseWsAux false t from by
        simp [collapseWsAux, ha]] at hc
      simp at hc
      rw [← hc]
      simpa using ha

theorem collapseWsAux_chain (l : List Char) :
    ∀ b, List.Chain' (fun a c => isPySpace a = false ∨ isPySpace c = false)
      (collapseWsAux b l) := by
  induction l with
  | nil => intro b; simp [collapseWsAux]
  | cons a t ih =>
    intro b
    by_cases ha : isPySpace a
    · cases b with
      | true =>
        rw [show collapseWsAux true (a :: t) = collapseWsAux true t from by
          simp [collapseWsAux, ha]]
        exact ih true
      | false =>
        rw [show collapseWsAux false (a :: t) = ' ' :: collapseWsAux true t from by
          simp [collapseWsAux, ha]]
        rw [List.chain'_cons']
        refine ⟨?_, ih true⟩
        intro y hy
        exact Or.inr (collapseWsAux_true_head t y hy)
    · rw [show collapseWsAux b (a :: t) = a :: collapseWsAux false t from by
        cases b <;> simp [collapseWsAux, ha]]
      rw [List.chain'_cons']
      refine ⟨?_, ih false⟩
      intro y _
      exact Or.inl (by simpa using ha)

theorem collapseWsAux_space_mem (l : List Char) :
    ∀ b, ∀ c ∈ collapseWsAux b l, isPySpace c = true → c = ' ' := by
  induction l with
  | nil => intro b c hc; simp [collapseWsAux] at hc
  | cons a t ih =>
    intro b c hc hsp
    by_cases ha : isPySpace a
    · cases b with
      | true =>
        rw [show collapseWsAux true (a :: t) = collapseWsAux true t from by
          simp [collapseWsAux, ha]] at hc
        exact ih true c hc hsp
      | false =>
        rw [show collapseWsAux false (a :: t) = ' ' :: collapseWsAux true t from by
          simp [collapseWsAux, ha]] at hc
        rcases List.mem_cons.mp hc with hc | hc
        · exact hc
        · exact ih true c hc hsp
    · rw [show collapseWsAux b (a :: t) = a :: collapseWsAux false t from by
        cases b <;> simp [collapseWsAux, ha]] at hc
      rcases List.mem_cons.mp hc with hc | hc
      · rw [hc] at hsp; exact absurd hsp ha
      · exact ih false c hc hsp

theorem collapseWsAux_getLast (l : List Char) :
    ∀ b c, (collapseWsAux b l).getLast? = some c → isPySpace c = true →
      ∃ y, l.getLast? = some y ∧ isPySpace y = true := by
  induction l with
  | nil => intro b c hc _; simp [collapseWsAux] at hc
  | cons a t ih =>
    intro b c hc hsp
    by_cases ha : isPySpace a
    · cases b with
      | true =>
        rw [show collapseWsAux true (a :: t) = collapseWsAux true t from by
          simp [collapseWsAux, ha]] at hc
        obtain ⟨y, hy, hysp⟩ := ih true c hc hsp
        cases t with
        | nil => simp at hy
        | cons u v =>
          exact ⟨y, by rw [List.getLast?_cons_cons]; exact hy, hysp⟩
      | false =>
        rw [show collapseWsAux false (a :: t) = ' ' :: collapseWsAux true t from by
          simp [collapseWsAux, ha]] at hc
        cases hX : collapseWsAux true t with
        | nil =>
          rw [hX] at hc
          simp at hc
          cases t with
          | nil => exact ⟨a, by simp, ha⟩
          | cons u v =>
            have hall := collapseWsAux_true_eq_nil (u :: v) hX
            have hne : (u : Char) :: v ≠ [] := by simp
            refine ⟨(u :: v).getLast hne, ?_, hall _ (List.getLast_mem hne)⟩
            rw [List.getLast?_cons_cons]
            exact List.getLast?_eq_getLast _ hne
        | cons x xs =>
          rw [hX] at hc
          rw [List.getLast?_cons_cons, ← hX] at hc
          obtain ⟨y, hy, hysp⟩ := ih true c hc hsp
          cases t with
          | nil => simp at hy
          | cons u v =>
            exact ⟨y, by rw [List.getLast?_cons_cons]; exact hy, hysp⟩
    · rw [show collapseWsAux b (a :: t) = a :: collapseWsAux false t from by
        cases b <;> simp [collapseWsAux, ha]] at hc
      cases hX : collapseWsAux false t with
      | nil =>
        rw [hX] at hc
        simp at hc
        rw [← hc] at hsp
        simp [hsp] at ha
      | cons x xs =>
        rw [hX] at hc
        rw [List.getLast?_cons_cons, ← hX] at hc
        obtain ⟨y, hy, hysp⟩ := ih false c hc hsp
        cases t with
        | nil => simp at hy
        | cons u v =>
          exact ⟨y, by rw [List.getLast?_cons_cons]; exact hy, hysp⟩

theorem pyStrip_fix_of (s : String)
    (h1 : ∀ c, s.data.head? = some c → isPySpace c = false)
    (h2 : ∀ c, s.data.getLast? = some c → isPySpace c = false) :
    pyStrip s = s := by
  unfold pyStrip
  rw [pyStripL_fix_of s.data h1 h2]

theorem collapseWs_strip_fix (t : String) :
    pyStrip (collapseWs (pyStrip t)) = collapseWs (pyStrip t) := by
  refine pyStrip_fix_of _ ?_ ?_
  · intro c hc
    have hc' : (collapseWsAux false (pyStripL t.data)).head? = some c := hc
    cases hP : pyStripL t.data with
    | nil => rw [hP] at hc'; simp [collapseWsAux] at hc'
    | cons c0 rest =>
      have hns : isPySpace c0 = false := pyStripL_head t.data c0 (by rw [hP]; rfl)
      rw [hP, show collapseWsAux false (c0 :: rest) = c0 :: collapseWsAux false rest from by
        simp [collapseWsAux, hns]] at hc'
      simp at hc'
      rw [← hc']
      exact hns
  · intro c hc
    have hc' : (collapseWsAux false (pyStripL t.data)).getLast? = some c := hc
    cases hsp : isPySpace c with
    | false => rfl
    | true =>
      obtain ⟨y, hy, hysp⟩ := collapseWsAux_getLast (pyStripL t.data) false c hc' hsp
      rw [pyStripL_last t.data y hy] at hysp
      exact hysp.symm

theorem clean_section_title_trimmed (t : String) :
    pyStrip (clean_section_title t) = clean_section_title t := by
  by_cases h1 : t = ""
  · rw [clean_section_title, if_pos (Or.inl h1)]
    decide
  · by_cases h2 : t = "None"
    · rw [clean_section_title, if_pos (Or.inr h2)]
      decide
    · rw [clean_section_title, if_neg (by simp [h1, h2])]
      exact collapseWs_strip_fix t

theorem mapM_sortKey_isSome (docs : List Doc) :
    (docs.mapM sortKey).isSome = true ↔
      ∀ d ∈ docs, (pyInt (d.para.getD "0")).isSome = true := by
  induction docs with
  | nil => exact ⟨fun _ d hd => absurd hd (by simp), fun _ => rfl⟩
  | cons a l ih =>
    rw [List.mapM_cons]
    constructor
    · intro h d hd
      rcases List.mem_cons.mp hd with hd | hd
      · subst hd
        cases hk : sortKey d with
        | none => rw [hk] at h; simp at h
        | some k =>
          unfold sortKey at hk
          cases hp : pyInt (d.para.getD "0") with
          | none => rw [hp] at hk; simp at hk
          | some v => rfl
      · cases hk : sortKey a with
        | none => rw [hk] at h; simp at h
        | some k =>
          rw [hk] at h
          cases hl : l.mapM sortKey with
          | none => rw [hl] at h; simp at h
          | some vs => exact ih.mp (by rw [hl]; rfl) d hd
    · intro h
      have ha : (sortKey a).isSome = true := by
        unfold sortKey
        cases hp : pyInt (a.para.getD "0") with
        | none =>
          have := h a (by simp)
          rw [hp] at this; simp at this
        | some v => rfl
      cases hk : sortKey a with
      | none => rw [hk] at ha; simp at ha
      | some k =>
        have hl : (l.mapM sortKey).isSome = true :=
          ih.mpr (fun d hd => h d (List.mem_cons_of_mem a hd))
        cases hm : l.mapM sortKey with
        | none => rw [hm] at hl; simp at hl
        | some vs => simp [hm]

theorem determine_section_type_cases (md : Doc) (content : String) :
    determine_section_type md content = "header" ∨
    determine_section_type md content = "paragraph" ∨
    determine_section_type md content = "table" ∨
    determine_section_type md content = "figure" := by
  unfold determine_section_type
  by_cases hA : md.section_title.getD "" ≠ "" ∧ md.section_title.getD "" ≠ "None"
  · rw [if_pos hA]
    by_cases hB : (pyStrip content).length < 200 ∧
        containsChars ((pyStrip content).data.map Char.toLower)
          ((md.section_title.getD "").data.map Char.toLower) = true
    · rw [if_pos hB]
      exact Or.inl rfl
    · rw [if_neg hB]
      exact Or.inr (Or.inl rfl)
  · rw [if_neg hA]
    by_cases hT : is_table_content content = true
    · rw [if_pos hT]
      exact Or.inr (Or.inr (Or.inl rfl))
    · rw [if_neg hT]
      by_cases hF : is_figure_content content = true
      · rw [if_pos hF]
        exact Or.inr (Or.inr (Or.inr rfl))
      · rw [if_neg hF]
        exact Or.inr (Or.inl rfl)

theorem should_include_content_header (content : String) :
    should_include_content "header" content = true := by
  rw [should_include_content, if_pos (by decide)]

theorem should_include_content_table_figure (ty content : String)
    (h : ty = "table" ∨ ty = "figure") :
    should_include_content ty content =
      (decide ((pyStrip content).length > 50) && !(is_purely_tabular content)) := by
  rcases h with h | h <;> subst h <;>
    rw [should_include_content, if_neg (by decide), if_pos (by decide)]

theorem eraseStep (st : IPassState) (x : Nat × Doc) :
    eraseSt (iStep st x) = processDoc (eraseSt st) x.2 := by
  by_cases h1 : pyStrip x.2.page_content = ""
  · simp [iStep, processDoc, h1, eraseSt]
  · by_cases h2 : section_id x.2 (pyStrip x.2.page_content) ∈ st.seen
    · simp [iStep, processDoc, h1, h2, eraseSt]
    · by_cases h3 : determine_section_type x.2 (pyStrip x.2.page_content) = "paragraph"
      · by_cases h4 : should_continue_paragraph x.2 (st.current.map eraseBuf) = true
        · cases hc : st.current with
          | none =>
            rw [hc] at h4
            simp only [Option.map_none'] at h4
            simp [iStep, processDoc, h1, h2, h3, h4, hc, eraseSt, eraseBuf]
          | some b =>
            rw [hc] at h4
            simp only [Option.map_some', eraseBuf] at h4
            simp [iStep, processDoc, h1, h2, h3, h4, hc, eraseSt, eraseBuf]
        · cases hc : st.current with
          | none =>
            rw [hc] at h4
            simp only [Option.map_none'] at h4
            simp [iStep, processDoc, h1, h2, h3, h4, hc, eraseSt, eraseBuf, flushI, flushBuf]
          | some b =>
            rw [hc] at h4
            simp only [Option.map_some', eraseBuf] at h4
            simp [iStep, processDoc, h1, h2, h3, h4, hc, eraseSt, eraseBuf, flushI, flushBuf]
      · by_cases h6 : should_include_content
            (determine_section_type x.2 (pyStrip x.2.page_content)) (pyStrip x.2.page_content) = true
        · cases hc : st.current with
          | none =>
            simp [iStep, processDoc, h1, h2, h3, h6, hc, eraseSt, eraseBuf, flushI, flushBuf]
          | some b =>
            simp [iStep, processDoc, h1, h2, h3, h6, hc, eraseSt, eraseBuf, flushI, flushBuf]
        · cases hc : st.current with
          | none =>
            simp [iStep, processDoc, h1, h2, h3, h6, hc, eraseSt, eraseBuf, flushI, flushBuf]
          | some b =>
            simp [iStep, processDoc, h1, h2, h3, h6, hc, eraseSt, eraseBuf, flushI, flushBuf]

theorem eraseFoldl (l : List Doc) : ∀ (n : Nat) (st : IPassState),
    eraseSt ((l.enumFrom n).foldl iStep st) = l.foldl processDoc (eraseSt st) := by
  induction l with
  | nil => intro n st; rfl
  | cons a t ih =>
    intro n st
    show eraseSt (((n, a) :: t.enumFrom (n + 1)).foldl iStep st) = _
    rw [List.foldl_cons, List.foldl_cons, ih (n + 1) (iStep st (n, a)), eraseStep st (n, a)]

theorem flushBuf_erase (c : Option IParaBuf) :
    flushBuf (c.map eraseBuf) = (flushI c).map ISection.sec := by
  cases c <;> rfl

theorem run_pass_eq_iSections (docs : List Doc) :
    run_pass docs = (iSections docs).map ISection.sec := by
  have h := eraseFoldl (sortDocs docs) 0 ⟨[], none, [], [], [], []⟩
  have h3 : (⟨[], none, []⟩ : PassState) = eraseSt ⟨[], none, [], [], [], []⟩ := rfl
  have h2 : (sortDocs docs).enum = (sortDocs docs).enumFrom 0 := rfl
  unfold run_pass iSections iProcessAll
  rw [h2, h3, ← h]
  rw [List.map_append, ← flushBuf_erase]
  rfl

theorem process_eq_iSections (docs : List Doc) (out : List Sect)
    (h : process_sequential_sections docs = some out) :
    out = (iSections docs).map ISection.sec := by
  unfold process_sequential_sections at h
  cases hm : docs.mapM sortKey with
  | none => rw [hm] at h; simp at h
  | some ks =>
    rw [hm] at h
    simp at h
    rw [← h]
    exact run_pass_eq_iSections docs

theorem sortDocs_pairwise (docs : List Doc) : (sortDocs docs).Pairwise docLE :=
  List.sorted_insertionSort docLE docs

theorem enum_pairwise_key (docs : List Doc) :
    ((sortDocs docs).enum).Pairwise (fun a b => docLE a.2 b.2) := by
  have h2 : ((sortDocs docs).enum.map Prod.snd).Pairwise docLE := by
    rw [List.enum_map_snd]
    exact sortDocs_pairwise docs
  exact (List.pairwise_map).mp h2

theorem iStep_empty (st : IPassState) (x : Nat × Doc)
    (h1 : pyStrip x.2.page_content = "") :
    iStep st x = { st with empties := st.empties ++ [x.1] } := by
  simp [iStep, h1]

theorem iStep_dup (st : IPassState) (x : Nat × Doc)
    (h1 : pyStrip x.2.page_content ≠ "")
    (h2 : section_id x.2 (pyStrip x.2.page_content) ∈ st.seen) :
    iStep st x = { st with dups := st.dups ++ [x.1] } := by
  simp [iStep, h1, h2]

theorem iStep_cont (st : IPassState) (x : Nat × Doc) (b : IParaBuf)
    (h1 : pyStrip x.2.page_content ≠ "")
    (h2 : section_id x.2 (pyStrip x.2.page_content) ∉ st.seen)
    (h3 : determine_section_type x.2 (pyStrip x.2.page_content) = "paragraph")
    (hc : st.current = some b)
    (h4 : should_continue_paragraph x.2 (some (eraseBuf b)) = true) :
    iStep st x = { st with
      seen := st.seen ++ [section_id x.2 (pyStrip x.2.page_content)]
      current := some ⟨x.2, b.content_parts ++ [pyStrip x.2.page_content], b.cons ++ [x]⟩ } := by
  simp [iStep, h1, h2, h3, hc, h4]

theorem iStep_para_of_not_cont (st : IPassState) (x : Nat × Doc)
    (h1 : pyStrip x.2.page_content ≠ "")
    (h2 : section_id x.2 (pyStrip x.2.page_content) ∉ st.seen)
    (h3 : determine_section_type x.2 (pyStrip x.2.page_content) = "paragraph")
    (h4 : ¬ should_continue_paragraph x.2 (st.current.map eraseBuf) = true) :
    iStep st x = { st with
      seen := st.seen ++ [section_id x.2 (pyStrip x.2.page_content)]
      sections := st.sections ++ flushI st.current
      current := some ⟨x.2, [pyStrip x.2.page_content], [x]⟩ } := by
  simp [iStep, h1, h2, h3, h4]

theorem iStep_para_none (st : IPassState) (x : Nat × Doc)
    (h1 : pyStrip x.2.page_content ≠ "")
    (h2 : section_id x.2 (pyStrip x.2.page_content) ∉ st.seen)
    (h3 : determine_section_type x.2 (pyStrip x.2.page_content) = "paragraph")
    (hc : st.current = none) :
    iStep st x = { st with
      seen := st.seen ++ [section_id x.2 (pyStrip x.2.page_content)]
      current := some ⟨x.2, [pyStrip x.2.page_content], [x]⟩ } := by
  by_cases h4 : should_continue_paragraph x.2 (st.current.map eraseBuf) = true
  · rw [hc] at h4
    simp [should_continue_paragraph] at h4
  · rw [iStep_para_of_not_cont st x h1 h2 h3 h4, hc]
    simp [flushI]

theorem iStep_nonpara_incl (st : IPassState) (x : Nat × Doc)
    (h1 : pyStrip x.2.page_content ≠ "")
    (h2 : section_id x.2 (pyStrip x.2.page_content) ∉ st.seen)
    (h3 : determine_section_type x.2 (pyStrip x.2.page_content) ≠ "paragraph")
    (h6 : should_include_content (determine_section_type x.2 (pyStrip x.2.page_content))
      (pyStrip x.2.page_content) = true) :
    iStep st x = { st with
      seen := st.seen ++ [section_id x.2 (pyStrip x.2.page_content)]
      sections := st.sections ++ flushI st.current ++
        [⟨mkNonParaSection x.2 (pyStrip x.2.page_content)
          (determine_section_type x.2 (pyStrip x.2.page_content)), [x]⟩]
      current := none } := by
  simp [iStep, h1, h2, h3, h6]

theorem iStep_nonpara_excl (st : IPassState) (x : Nat × Doc)
    (h1 : pyStrip x.2.page_content ≠ "")
    (h2 : section_id x.2 (pyStrip x.2.page_content) ∉ st.seen)
    (h3 : determine_section_type x.2 (pyStrip x.2.page_content) ≠ "paragraph")
    (h6 : ¬ should_include_content (determine_section_type x.2 (pyStrip x.2.page_content))
      (pyStrip x.2.page_content) = true) :
    iStep st x = { st with
      seen := st.seen ++ [section_id x.2 (pyStrip x.2.page_content)]
      sections := st.sections ++ flushI st.current
      current := none
      noise := st.noise ++ [x.1] } := by
  simp [iStep, h1, h2, h3, h6]

theorem perm_relocate {α : Type} (X Z : List α) (a : α) :
    List.Perm (X ++ ([a] ++ Z)) ((X ++ Z) ++ [a]) := by
  have h : List.Perm ([a] ++ Z) (Z ++ [a]) := List.perm_append_comm
  simpa [List.append_assoc] using h.append_left X

theorem consFlat_flush (st : IPassState) :
    ((st.sections ++ flushI st.current).map ISection.cons).flatten = consFlat st := by
  cases hc : st.current <;> simp [consFlat, bufCons, flushI, hc]

theorem perm_ins_A {A E D N Pf : List Nat} {i : Nat}
    (h : List.Perm (A ++ E ++ D ++ N) Pf) :
    List.Perm ((A ++ [i]) ++ E ++ D ++ N) (Pf ++ [i]) := by
  refine List.Perm.trans ?_ (h.append_right [i])
  simp only [List.append_assoc]
  refine List.Perm.append_left A ?_
  simpa [List.append_assoc] using
    (@List.perm_append_comm _ [i] (E ++ (D ++ N)))

theorem perm_ins_E {A E D N Pf : List Nat} {i : Nat}
    (h : List.Perm (A ++ E ++ D ++ N) Pf) :
    List.Perm (A ++ (E ++ [i]) ++ D ++ N) (Pf ++ [i]) := by
  refine List.Perm.trans ?_ (h.append_right [i])
  simp only [List.append_assoc]
  refine List.Perm.append_left A (List.Perm.append_left E ?_)
  simpa [List.append_assoc] using
    (@List.perm_append_comm _ [i] (D ++ N))

theorem perm_ins_D {A E D N Pf : List Nat} {i : Nat}
    (h : List.Perm (A ++ E ++ D ++ N) Pf) :
    List.Perm (A ++ E ++ (D ++ [i]) ++ N) (Pf ++ [i]) := by
  refine List.Perm.trans ?_ (h.append_right [i])
  simp only [List.append_assoc]
  refine List.Perm.append_left A (List.Perm.append_left E (List.Perm.append_left D ?_))
  simpa using (@List.perm_append_comm _ [i] N)

theorem perm_ins_N {A E D N Pf : List Nat} {i : Nat}
    (h : List.Perm (A ++ E ++ D ++ N) Pf) :
    List.Perm (A ++ E ++ D ++ (N ++ [i])) (Pf ++ [i]) := by
  refine List.Perm.trans ?_ (h.append_right [i])
  simp [List.append_assoc]

theorem passInv_init : PassInv [] ⟨[], none, [], [], [], []⟩ := by
  refine ⟨?_, ?_, ?_, ?_, ?_, ?_, ?_, ?_⟩
  · simp [consFlat, bufCons]
  · simp [consFlat, bufCons]
  · intro k; simp
  · intro b hb; simp at hb
  · intro S hS; simp at hS
  · simp
  · intro i hi; simp at hi
  · intro i hi; simp at hi

theorem flushI_SecOK (cur : Option IParaBuf)
    (hbuf : ∀ b, cur = some b →
      (∃ q, b.cons.getLast? = some q ∧ b.metadata = q.2) ∧
      b.content_parts = b.cons.map fragText ∧ b.cons ≠ []) :
    ∀ S ∈ flushI cur, SecOK S := by
  intro S hS
  cases hc : cur with
  | none => rw [hc] at hS; simp [flushI] at hS
  | some b =>
    rw [hc] at hS
    simp [flushI] at hS
    obtain ⟨⟨q, hq, hqm⟩, hparts, hne⟩ := hbuf b hc
    subst hS
    refine ⟨hne, ?_, ?_, ?_⟩
    · simp [create_paragraph_section, eraseBuf, hparts]
    · intro _
      refine ⟨q, hq, ?_, ?_⟩
      · simp [create_paragraph_section, eraseBuf, hqm]
      · simp [create_paragraph_section, eraseBuf, hqm]
    · intro h
      simp [create_paragraph_section, eraseBuf] at h

theorem passInv_empty (P : List (Nat × Doc)) (st : IPassState) (x : Nat × Doc)
    (inv : PassInv P st) (h1 : pyStrip x.2.page_content = "") :
    PassInv (P ++ [x]) (iStep st x) := by
  rw [iStep_empty st x h1]
  obtain ⟨sub, perm, seen_iff, buf, secs, empties_eq, dups_spec, noise_spec⟩ := inv
  refine ⟨?_, ?_, ?_, ?_, ?_, ?_, ?_, ?_⟩
  · exact sub.trans (List.sublist_append_left P [x])
  · rw [List.map_append]
    exact perm_ins_E perm
  · intro k
    constructor
    · intro hk
      obtain ⟨p, hp, hne, hid⟩ := (seen_iff k).mp hk
      exact ⟨p, List.mem_append_left _ hp, hne, hid⟩
    · rintro ⟨p, hp, hne, hid⟩
      rcases List.mem_append.mp hp with hp | hp
      · exact (seen_iff k).mpr ⟨p, hp, hne, hid⟩
      · rw [List.mem_singleton.mp hp] at hne
        exact absurd h1 hne
  · exact buf
  · exact secs
  · rw [List.filter_append, List.map_append, ← empties_eq]
    have hfx : List.filter (fun p => decide (pyStrip p.2.page_content = "")) [x] = [x] := by
      simp [List.filter, h1]
    rw [hfx]
    rfl
  · intro i hi
    obtain ⟨l1, e, l2, d, l3, heq, he, hd, hid⟩ := dups_spec i hi
    exact ⟨l1, e, l2, d, l3 ++ [x], by rw [heq]; simp, he, hd, hid⟩
  · intro i hi
    obtain ⟨p, hp, hpi, hty, hinc, hne⟩ := noise_spec i hi
    exact ⟨p, List.mem_append_left _ hp, hpi, hty, hinc, hne⟩

theorem passInv_dup (P : List (Nat × Doc)) (st : IPassState) (x : Nat × Doc)
    (inv : PassInv P st) (h1 : pyStrip x.2.page_content ≠ "")
    (h2 : section_id x.2 (pyStrip x.2.page_content) ∈ st.seen) :
    PassInv (P ++ [x]) (iStep st x) := by
  rw [iStep_dup st x h1 h2]
  obtain ⟨sub, perm, seen_iff, buf, secs, empties_eq, dups_spec, noise_spec⟩ := inv
  refine ⟨?_, ?_, ?_, ?_, ?_, ?_, ?_, ?_⟩
  · exact sub.trans (List.sublist_append_left P [x])
  · rw [List.map_append]
    exact perm_ins_D perm
  · intro k
    constructor
    · intro hk
      obtain ⟨p, hp, hne, hid⟩ := (seen_iff k).mp hk
      exact ⟨p, List.mem_append_left _ hp, hne, hid⟩
    · rintro ⟨p, hp, hne, hid⟩
      rcases List.mem_append.mp hp with hp | hp
      · exact (seen_iff k).mpr ⟨p, hp, hne, hid⟩
      · rw [List.mem_singleton.mp hp] at hne hid
        rw [← hid]
        exact h2
  · exact buf
  · exact secs
  · rw [List.filter_append, List.map_append, ← empties_eq]
    have hfx : List.filter (fun p => decide (pyStrip p.2.page_content = "")) [x] = [] := by
      simp [List.filter, h1]
    rw [hfx]
    simp
  · intro i hi
    rcases List.mem_append.mp hi with hi | hi
    · obtain ⟨l1, e, l2, d, l3, heq, he, hd, hid⟩ := dups_spec i hi
      exact ⟨l1, e, l2, d, l3 ++ [x], by rw [heq]; simp, he, hd, hid⟩
    · rw [List.mem_singleton.mp hi]
      obtain ⟨e, he, hene, heid⟩ := (seen_iff (section_id x.2 (pyStrip x.2.page_content))).mp h2
      obtain ⟨s, t, hst⟩ := List.append_of_mem he
      refine ⟨s, e, t, x.2, [], ?_, hene, h1, heid⟩
      rw [hst]
  · intro i hi
    obtain ⟨p, hp, hpi, hty, hinc, hne⟩ := noise_spec i hi
    exact ⟨p, List.mem_append_left _ hp, hpi, hty, hinc, hne⟩

theorem seen_ext {P : List (Nat × Doc)} {seen : List String} {x : Nat × Doc}
    (h1 : pyStrip x.2.page_content ≠ "")
    (hiff : ∀ k, k ∈ seen ↔ ∃ p ∈ P, pyStrip p.2.page_content ≠ "" ∧
      section_id p.2 (pyStrip p.2.page_content) = k) :
    ∀ k, k ∈ seen ++ [section_id x.2 (pyStrip x.2.page_content)] ↔
      ∃ p ∈ P ++ [x], pyStrip p.2.page_content ≠ "" ∧
        section_id p.2 (pyStrip p.2.page_content) = k := by
  intro k
  constructor
  · intro hk
    rcases List.mem_append.mp hk with hk | hk
    · obtain ⟨p, hp, hne, hid⟩ := (hiff k).mp hk
      exact ⟨p, List.mem_append_left _ hp, hne, hid⟩
    · exact ⟨x, List.mem_append_right _ (by simp), h1, (List.mem_singleton.mp hk).symm⟩
  · rintro ⟨p, hp, hne, hid⟩
    rcases List.mem_append.mp hp with hp | hp
    · exact List.mem_append_left _ ((hiff k).mpr ⟨p, hp, hne, hid⟩)
    · rw [List.mem_singleton.mp hp] at hid
      rw [← hid]
      exact List.mem_append_right _ (by simp)

theorem empties_ext {P : List (Nat × Doc)} {empties : List Nat} {x : Nat × Doc}
    (h1 : pyStrip x.2.page_content ≠ "")
    (he : empties = (P.filter (fun p => pyStrip p.2.page_content = "")).map Prod.fst) :
    empties = ((P ++ [x]).filter (fun p => pyStrip p.2.page_content = "")).map Prod.fst := by
  rw [List.filter_append]
  have hfx : List.filter (fun p => decide (pyStrip p.2.page_content = "")) [x] = [] := by
    simp [List.filter, h1]
  rw [hfx, List.append_nil]
  exact he

theorem dups_ext {P : List (Nat × Doc)} {dups : List Nat} {x : Nat × Doc}
    (hd : ∀ i ∈ dups, ∃ l1 e l2 d l3,
      P = l1 ++ e :: l2 ++ (i, d) :: l3 ∧
      pyStrip e.2.page_content ≠ "" ∧ pyStrip d.page_content ≠ "" ∧
      section_id e.2 (pyStrip e.2.page_content) = section_id d (pyStrip d.page_content)) :
    ∀ i ∈ dups, ∃ l1 e l2 d l3,
      P ++ [x] = l1 ++ e :: l2 ++ (i, d) :: l3 ∧
      pyStrip e.2.page_content ≠ "" ∧ pyStrip d.page_content ≠ "" ∧
      section_id e.2 (pyStrip e.2.page_content) = section_id d (pyStrip d.page_content) := by
  intro i hi
  obtain ⟨l1, e, l2, d, l3, heq, he, hdne, hid⟩ := hd i hi
  exact ⟨l1, e, l2, d, l3 ++ [x], by rw [heq]; simp, he, hdne, hid⟩

theorem noise_ext {P : List (Nat × Doc)} {noise : List Nat} {x : Nat × Doc}
    (hn : ∀ i ∈ noise, ∃ p ∈ P, p.1 = i ∧
      (determine_section_type p.2 (pyStrip p.2.page_content) = "table" ∨
       determine_section_type p.2 (pyStrip p.2.page_content) = "figure") ∧
      should_include_content (determine_section_type p.2 (pyStrip p.2.page_content))
        (pyStrip p.2.page_content) = false ∧
      pyStrip p.2.page_content ≠ "") :
    ∀ i ∈ noise, ∃ p ∈ P ++ [x], p.1 = i ∧
      (determine_section_type p.2 (pyStrip p.2.page_content) = "table" ∨
       determine_section_type p.2 (pyStrip p.2.page_content) = "figure") ∧
      should_include_content (determine_section_type p.2 (pyStrip p.2.page_content))
        (pyStrip p.2.page_content) = false ∧
      pyStrip p.2.page_content ≠ "" := by
  intro i hi
  obtain ⟨p, hp, hpi, hty, hinc, hne⟩ := hn i hi
  exact ⟨p, List.mem_append_left _ hp, hpi, hty, hinc, hne⟩

theorem passInv_cont (P : List (Nat × Doc)) (st : IPassState) (x : Nat × Doc)
    (b : IParaBuf) (inv : PassInv P st) (h1 : pyStrip x.2.page_content ≠ "")
    (h2 : section_id x.2 (pyStrip x.2.page_content) ∉ st.seen)
    (h3 : determine_section_type x.2 (pyStrip x.2.page_content) = "paragraph")
    (hc : st.current = some b)
    (h4 : should_continue_paragraph x.2 (some (eraseBuf b)) = true) :
    PassInv (P ++ [x]) (iStep st x) := by
  rw [iStep_cont st x b h1 h2 h3 hc h4]
  obtain ⟨sub, perm, seen_iff, buf, secs, empties_eq, dups_spec, noise_spec⟩ := inv
  have hflat : consFlat { st with
      seen := st.seen ++ [section_id x.2 (pyStrip x.2.page_content)]
      current := some ⟨x.2, b.content_parts ++ [pyStrip x.2.page_content], b.cons ++ [x]⟩ } =
      consFlat st ++ [x] := by
    simp [consFlat, bufCons, hc, List.append_assoc]
  refine ⟨?_, ?_, ?_, ?_, ?_, ?_, ?_, ?_⟩
  · rw [hflat]
    exact sub.append (List.Sublist.refl [x])
  · rw [hflat, List.map_append, List.map_append]
    exact perm_ins_A perm
  · exact seen_ext h1 seen_iff
  · intro b' hb'
    simp at hb'
    obtain ⟨hq, hparts, _⟩ := buf b hc
    rw [← hb']
    refine ⟨⟨x, List.getLast?_concat _, rfl⟩, ?_, by simp⟩
    simp [hparts, fragText]
  · exact secs
  · exact empties_ext h1 empties_eq
  · exact dups_ext dups_spec
  · exact noise_ext noise_spec

theorem passInv_newpara (P : List (Nat × Doc)) (st : IPassState) (x : Nat × Doc)
    (inv : PassInv P st) (h1 : pyStrip x.2.page_content ≠ "")
    (_h2 : section_id x.2 (pyStrip x.2.page_content) ∉ st.seen)
    (_h3 : determine_section_type x.2 (pyStrip x.2.page_content) = "paragraph")
    (heqs : iStep st x = { st with
      seen := st.seen ++ [section_id x.2 (pyStrip x.2.page_content)]
      sections := st.sections ++ flushI st.current
      current := some ⟨x.2, [pyStrip x.2.page_content], [x]⟩ }) :
    PassInv (P ++ [x]) (iStep st x) := by
  rw [heqs]
  obtain ⟨sub, perm, seen_iff, buf, secs, empties_eq, dups_spec, noise_spec⟩ := inv
  have hflat : consFlat { st with
      seen := st.seen ++ [section_id x.2 (pyStrip x.2.page_content)]
      sections := st.sections ++ flushI st.current
      current := some ⟨x.2, [pyStrip x.2.page_content], [x]⟩ } =
      consFlat st ++ [x] := by
    show ((st.sections ++ flushI st.current).map ISection.cons).flatten ++ bufCons
      (some ⟨x.2, [pyStrip x.2.page_content], [x]⟩) = consFlat st ++ [x]
    rw [consFlat_flush st]
    rfl
  refine ⟨?_, ?_, ?_, ?_, ?_, ?_, ?_, ?_⟩
  · rw [hflat]
    exact sub.append (List.Sublist.refl [x])
  · rw [hflat, List.map_append, List.map_append]
    exact perm_ins_A perm
  · exact seen_ext h1 seen_iff
  · intro b' hb'
    simp at hb'
    rw [← hb']
    exact ⟨⟨x, rfl, rfl⟩, rfl, by simp⟩
  · intro S hS
    rcases List.mem_append.mp hS with hS | hS
    · exact secs S hS
    · exact flushI_SecOK st.current buf S hS
  · exact empties_ext h1 empties_eq
  · exact dups_ext dups_spec
  · exact noise_ext noise_spec

theorem passInv_incl (P : List (Nat × Doc)) (st : IPassState) (x : Nat × Doc)
    (inv : PassInv P st) (h1 : pyStrip x.2.page_content ≠ "")
    (h2 : section_id x.2 (pyStrip x.2.page_content) ∉ st.seen)
    (h3 : determine_section_type x.2 (pyStrip x.2.page_content) ≠ "paragraph")
    (h6 : should_include_content (determine_section_type x.2 (pyStrip x.2.page_content))
      (pyStrip x.2.page_content) = true) :
    PassInv (P ++ [x]) (iStep st x) := by
  rw [iStep_nonpara_incl st x h1 h2 h3 h6]
  obtain ⟨sub, perm, seen_iff, buf, secs, empties_eq, dups_spec, noise_spec⟩ := inv
  have hflat : consFlat { st with
      seen := st.seen ++ [section_id x.2 (pyStrip x.2.page_content)]
      sections := st.sections ++ flushI st.current ++
        [⟨mkNonParaSection x.2 (pyStrip x.2.page_content)
          (determine_section_type x.2 (pyStrip x.2.page_content)), [x]⟩]
      current := none } = consFlat st ++ [x] := by
    show (((st.sections ++ flushI st.current) ++
        [(⟨mkNonParaSection x.2 (pyStrip x.2.page_content)
          (determine_section_type x.2 (pyStrip x.2.page_content)), [x]⟩ : ISection)]).map
            ISection.cons).flatten ++ bufCons none = consFlat st ++ [x]
    rw [List.map_append, List.flatten_append, consFlat_flush st]
    simp [bufCons]
  refine ⟨?_, ?_, ?_, ?_, ?_, ?_, ?_, ?_⟩
  · rw [hflat]
    exact sub.append (List.Sublist.refl [x])
  · rw [hflat, List.map_append, List.map_append]
    exact perm_ins_A perm
  · exact seen_ext h1 seen_iff
  · intro b' hb'
    simp at hb'
  · intro S hS
    rcases List.mem_append.mp hS with hS | hS
    · rcases List.mem_append.mp hS with hS | hS
      · exact secs S hS
      · exact flushI_SecOK st.current buf S hS
    · rw [List.mem_singleton.mp hS]
      unfold SecOK
      refine ⟨by simp, ?_, ?_, ?_⟩
      · show (mkNonParaSection x.2 (pyStrip x.2.page_content) _).content =
          String.intercalate " " [fragText x]
        rw [intercalate_single]
        rfl
      · intro hty
        exact absurd hty h3
      · intro _
        exact ⟨x, rfl, rfl⟩
  · exact empties_ext h1 empties_eq
  · exact dups_ext dups_spec
  · exact noise_ext noise_spec

theorem passInv_excl (P : List (Nat × Doc)) (st : IPassState) (x : Nat × Doc)
    (inv : PassInv P st) (h1 : pyStrip x.2.page_content ≠ "")
    (h2 : section_id x.2 (pyStrip x.2.page_content) ∉ st.seen)
    (h3 : determine_section_type x.2 (pyStrip x.2.page_content) ≠ "paragraph")
    (h6 : ¬ should_include_content (determine_section_type x.2 (pyStrip x.2.page_content))
      (pyStrip x.2.page_content) = true) :
    PassInv (P ++ [x]) (iStep st x) := by
  rw [iStep_nonpara_excl st x h1 h2 h3 h6]
  obtain ⟨sub, perm, seen_iff, buf, secs, empties_eq, dups_spec, noise_spec⟩ := inv
  have hflat : consFlat { st with
      seen := st.seen ++ [section_id x.2 (pyStrip x.2.page_content)]
      sections := st.sections ++ flushI st.current
      current := none
      noise := st.noise ++ [x.1] } = consFlat st := by
    show ((st.sections ++ flushI st.current).map ISection.cons).flatten ++ bufCons none =
      consFlat st
    rw [consFlat_flush st]
    simp [bufCons]
  refine ⟨?_, ?_, ?_, ?_, ?_, ?_, ?_, ?_⟩
  · rw [hflat]
    exact sub.trans (List.sublist_append_left P [x])
  · rw [hflat, List.map_append]
    exact perm_ins_N perm
  · exact seen_ext h1 seen_iff
  · intro b' hb'
    simp at hb'
  · intro S hS
    rcases List.mem_append.mp hS with hS | hS
    · exact secs S hS
    · exact flushI_SecOK st.current buf S hS
  · exact empties_ext h1 empties_eq
  · exact dups_ext dups_spec
  · intro i hi
    rcases List.mem_append.mp hi with hi | hi
    · exact noise_ext noise_spec i hi
    · rw [List.mem_singleton.mp hi]
      refine ⟨x, List.mem_append_right _ (by simp), rfl, ?_, ?_, h1⟩
      · rcases determine_section_type_cases x.2 (pyStrip x.2.page_content) with h | h | h | h
        · rw [h] at h6
          exact absurd (should_include_content_header (pyStrip x.2.page_content)) h6
        · exact absurd h h3
        · exact Or.inl h
        · exact Or.inr h
      · exact Bool.not_eq_true _ ▸ (by simpa using h6)

theorem passInv_step (P : List (Nat × Doc)) (st : IPassState) (x : Nat × Doc)
    (inv : PassInv P st) : PassInv (P ++ [x]) (iStep st x) := by
  by_cases h1 : pyStrip x.2.page_content = ""
  · exact passInv_empty P st x inv h1
  · by_cases h2 : section_id x.2 (pyStrip x.2.page_content) ∈ st.seen
    · exact passInv_dup P st x inv h1 h2
    · by_cases h3 : determine_section_type x.2 (pyStrip x.2.page_content) = "paragraph"
      · by_cases h4 : should_continue_paragraph x.2 (st.current.map eraseBuf) = true
        · cases hc : st.current with
          | none =>
            refine passInv_newpara P st x inv h1 h2 h3 ?_
            rw [iStep_para_none st x h1 h2 h3 hc, hc]
            simp [flushI]
          | some b =>
            refine passInv_cont P st x b inv h1 h2 h3 hc ?_
            rw [hc] at h4
            simpa [eraseBuf] using h4
        · exact passInv_newpara P st x inv h1 h2 h3 (iStep_para_of_not_cont st x h1 h2 h3 h4)
      · by_cases h6 : should_include_content
            (determine_section_type x.2 (pyStrip x.2.page_content)) (pyStrip x.2.page_content) = true
        · exact passInv_incl P st x inv h1 h2 h3 h6
        · exact passInv_excl P st x inv h1 h2 h3 h6

theorem passInv_foldl (l : List (Nat × Doc)) : ∀ (P : List (Nat × Doc)) (st : IPassState),
    PassInv P st → PassInv (P ++ l) (l.foldl iStep st) := by
  induction l with
  | nil => intro P st h; simpa using h
  | cons a t ih =>
    intro P st h
    have h2 := ih (P ++ [a]) (iStep st a) (passInv_step P st a h)
    rw [List.foldl_cons]
    simpa [List.append_assoc] using h2

theorem passInv_run (docs : List Doc) :
    PassInv ((sortDocs docs).enum) (iProcessAll docs) := by
  have h := passInv_foldl ((sortDocs docs).enum) [] ⟨[], none, [], [], [], []⟩ passInv_init
  simpa using h

theorem iSections_flat (docs : List Doc) :
    ((iSections docs).map ISection.cons).flatten = consFlat (iProcessAll docs) := by
  cases hc : (iProcessAll docs).current <;>
    simp [iSections, consFlat, bufCons, flushI, hc]

theorem iSections_SecOK (docs : List Doc) : ∀ S ∈ iSections docs, SecOK S := by
  have inv := passInv_run docs
  intro S hS
  rcases List.mem_append.mp hS with h | h
  · exact inv.secs S h
  · exact flushI_SecOK _ inv.buf S h

theorem iSections_sublist (docs : List Doc) :
    (((iSections docs).map ISection.cons).flatten).Sublist ((sortDocs docs).enum) := by
  rw [iSections_flat]
  exact (passInv_run docs).sub

theorem iSections_perm (docs : List Doc) :
    ((((iSections docs).map ISection.cons).flatten).map Prod.fst ++
      (iProcessAll docs).empties ++ (iProcessAll docs).dups ++
      (iProcessAll docs).noise).Perm (((sortDocs docs).enum).map Prod.fst) := by
  rw [iSections_flat]
  exact (passInv_run docs).perm

theorem bucket_count (docs : List Doc) (i : Nat) (d : Doc)
    (hmem : (i, d) ∈ (sortDocs docs).enum) :
    ((((iSections docs).map ISection.cons).flatten.map Prod.fst).count i
      + ((iProcessAll docs).empties).count i
      + ((iProcessAll docs).dups).count i
      + ((iProcessAll docs).noise).count i) = 1 := by
  have hcount := (iSections_perm docs).count_eq i
  rw [List.count_append, List.count_append, List.count_append] at hcount
  have hnd := List.nodup_enum_map_fst (sortDocs docs)
  have hi : i ∈ ((sortDocs docs).enum).map Prod.fst := List.mem_map_of_mem Prod.fst hmem
  rw [List.count_eq_one_of_mem hnd hi] at hcount
  exact hcount

theorem countP_of_flatten_count_zero (LL : List (List Nat)) (i : Nat)
    (h : (LL.flatten).count i = 0) :
    LL.countP (fun L => decide (i ∈ L)) = 0 := by
  induction LL with
  | nil => rfl
  | cons L LS ih =>
    rw [List.flatten_cons, List.count_append] at h
    rw [List.countP_cons]
    have h1 : L.count i = 0 := by omega
    have h2 : (LS.flatten).count i = 0 := by omega
    rw [ih h2]
    simp [List.count_eq_zero.mp h1]

theorem countP_of_flatten_count_one (LL : List (List Nat)) (i : Nat)
    (h : (LL.flatten).count i = 1) :
    LL.countP (fun L => decide (i ∈ L)) = 1 := by
  induction LL with
  | nil => simp at h
  | cons L LS ih =>
    rw [List.flatten_cons, List.count_append] at h
    rw [List.countP_cons]
    by_cases hL : i ∈ L
    · have h1 : 0 < L.count i := List.count_pos_iff.mpr hL
      have h2 : (LS.flatten).count i = 0 := by omega
      rw [countP_of_flatten_count_zero LS i h2]
      simp [hL]
    · have h1 : L.count i = 0 := List.count_eq_zero.mpr hL
      rw [ih (by omega)]
      simp [hL]

theorem foldl_pick_mem (t : List (Nat × Int)) : ∀ a : Nat × Int,
    t.foldl (fun a b => if keyLE a b then a else b) a ∈ a :: t := by
  induction t with
  | nil => intro a; simp
  | cons b t' ih =>
    intro a
    rw [List.foldl_cons]
    rcases List.mem_cons.mp (ih (if keyLE a b then a else b)) with h | h
    · rw [h]
      by_cases hab : keyLE a b
      · rw [if_pos hab]
        exact List.mem_cons_self a _
      · rw [if_neg hab]
        exact List.mem_cons_of_mem a (List.mem_cons_self b t')
    · exact List.mem_cons_of_mem a (List.mem_cons_of_mem b h)

theorem keyMin_mem (l : List (Nat × Int)) (k : Nat × Int) (h : keyMin l = some k) :
    k ∈ l := by
  cases l with
  | nil => simp [keyMin] at h
  | cons a t =>
    rw [keyMin] at h
    have hk : k = t.foldl (fun a b => if keyLE a b then a else b) a := by
      injection h with h
      exact h.symm
    rw [hk]
    exact foldl_pick_mem t a

theorem iStep_seen_grow (st : IPassState) (x : Nat × Doc) :
    ∃ t, (iStep st x).seen = st.seen ++ t := by
  by_cases h1 : pyStrip x.2.page_content = ""
  · exact ⟨[], by rw [iStep_empty st x h1]; simp⟩
  · by_cases h2 : section_id x.2 (pyStrip x.2.page_content) ∈ st.seen
    · exact ⟨[], by rw [iStep_dup st x h1 h2]; simp⟩
    · refine ⟨[section_id x.2 (pyStrip x.2.page_content)], ?_⟩
      by_cases h3 : determine_section_type x.2 (pyStrip x.2.page_content) = "paragraph"
      · by_cases h4 : should_continue_paragraph x.2 (st.current.map eraseBuf) = true
        · cases hc : st.current with
          | none => rw [iStep_para_none st x h1 h2 h3 hc]
          | some b =>
            rw [iStep_cont st x b h1 h2 h3 hc (by rw [hc] at h4; simpa [eraseBuf] using h4)]
        · rw [iStep_para_of_not_cont st x h1 h2 h3 h4]
      · by_cases h6 : should_include_content
            (determine_section_type x.2 (pyStrip x.2.page_content)) (pyStrip x.2.page_content) = true
        · rw [iStep_nonpara_incl st x h1 h2 h3 h6]
        · rw [iStep_nonpara_excl st x h1 h2 h3 h6]

theorem iStep_dups_grow (st : IPassState) (x : Nat × Doc) :
    ∃ t, (iStep st x).dups = st.dups ++ t := by
  by_cases h1 : pyStrip x.2.page_content = ""
  · exact ⟨[], by rw [iStep_empty st x h1]; simp⟩
  · by_cases h2 : section_id x.2 (pyStrip x.2.page_content) ∈ st.seen
    · exact ⟨[x.1], by rw [iStep_dup st x h1 h2]⟩
    · refine ⟨[], ?_⟩
      by_cases h3 : determine_section_type x.2 (pyStrip x.2.page_content) = "paragraph"
      · by_cases h4 : should_continue_paragraph x.2 (st.current.map eraseBuf) = true
        · cases hc : st.current with
          | none => rw [iStep_para_none st x h1 h2 h3 hc]; simp
          | some b =>
            rw [iStep_cont st x b h1 h2 h3 hc (by rw [hc] at h4; simpa [eraseBuf] using h4)]
            simp
        · rw [iStep_para_of_not_cont st x h1 h2 h3 h4]; simp
      · by_cases h6 : should_include_content
            (determine_section_type x.2 (pyStrip x.2.page_content)) (pyStrip x.2.page_content) = true
        · rw [iStep_nonpara_incl st x h1 h2 h3 h6]; simp
        · rw [iStep_nonpara_excl st x h1 h2 h3 h6]; simp

theorem foldl_seen_mono (l : List (Nat × Doc)) : ∀ (st : IPassState) (k : String),
    k ∈ st.seen → k ∈ (l.foldl iStep st).seen := by
  induction l with
  | nil => intro st k h; exact h
  | cons a t ih =>
    intro st k h
    rw [List.foldl_cons]
    refine ih (iStep st a) k ?_
    obtain ⟨u, hu⟩ := iStep_seen_grow st a
    rw [hu]
    exact List.mem_append_left _ h

theorem foldl_dups_mono (l : List (Nat × Doc)) : ∀ (st : IPassState) (i : Nat),
    i ∈ st.dups → i ∈ (l.foldl iStep st).dups := by
  induction l with
  | nil => intro st i h; exact h
  | cons a t ih =>
    intro st i h
    rw [List.foldl_cons]
    refine ih (iStep st a) i ?_
    obtain ⟨u, hu⟩ := iStep_dups_grow st a
    rw [hu]
    exact List.mem_append_left _ h

/-- C1: counterexample to the claim as stated.  A fragment whose
`paragraph_index` metadata is the unparsable string `"abc"` makes
`process_sequential_sections` raise `ValueError` from `int(...)` inside the
sort key (modelled as `none`): the value is not treated as `0` and
processing does not complete. -/
theorem C1_counterexample :
    process_sequential_sections [⟨some "1", some "abc", none, "Hello"⟩] = none ∧
    pyInt "abc" = none :=
  ⟨rfl, rfl⟩

/-- C1 (amended): `process_sequential_sections` completes normally exactly
when every fragment's `para` field parses as a Python `int`; a fragment
whose `paragraph_index` cannot parse makes the call raise (`none`) instead
of being treated as `0`.  Malformed `pages` strings, in contrast, never
raise (`extract_page_number` is total and defaults to `0`). -/
theorem C1_raises_iff (docs : List Doc) :
    (process_sequential_sections docs).isSome = true ↔
      ∀ d ∈ docs, (pyInt (d.para.getD "0")).isSome = true := by
  have h := mapM_sortKey_isSome docs
  unfold process_sequential_sections
  constructor
  · intro hs
    refine h.mp ?_
    cases hm : docs.mapM sortKey with
    | none => rw [hm] at hs; simp at hs
    | some v => rfl
  · intro hall
    have h2 := h.mpr hall
    cases hm : docs.mapM sortKey with
    | none => rw [hm] at h2; simp at h2
    | some v => rfl

/-- C1 witness: a list whose `para` fields all parse processes normally. -/
theorem C1_witness :
    (process_sequential_sections [⟨some "1", some "2", none, "Hi"⟩]).isSome = true :=
  (C1_raises_iff [⟨some "1", some "2", none, "Hi"⟩]).mpr (by decide)

/-- C2: counterexample to the claim as stated.  A fragment with an absent
`section_title_hint` that classifies as paragraph produces a Section titled
`"Paragraph"` (the `metadata.get` default for `section_title` in
`create_paragraph_section`), not `"Unknown Section"`. -/
theorem C2_counterexample :
    process_sequential_sections [⟨some "1", some "1", none, "Hello world"⟩] =
      some [⟨"Paragraph", "Hello world", 1, "1", 11, "paragraph"⟩] ∧
    ("Paragraph" : String) ≠ "Unknown Section" :=
  ⟨rfl, by decide⟩

/-- C2 (amended): a hint present as the literal string `"None"` (or empty)
yields the title `"Unknown Section"`; an absent hint yields `"Paragraph"`
for paragraph sections (the non-paragraph default is `"Unknown"`); any other
hint is trimmed of surrounding whitespace with internal whitespace runs
collapsed to single spaces (the cleaned title has no adjacent whitespace,
every whitespace character in it is a plain blank, and stripping it again
changes nothing). -/
theorem C2_title_amended :
    (clean_section_title "None" = "Unknown Section" ∧
     clean_section_title "" = "Unknown Section") ∧
    (∀ t : String, t ≠ "" → t ≠ "None" →
      clean_section_title t = collapseWs (pyStrip t)) ∧
    (∀ t : String, t ≠ "" → t ≠ "None" →
      List.Chain' (fun a b => isPySpace a = false ∨ isPySpace b = false)
        (clean_section_title t).data ∧
      (∀ c ∈ (clean_section_title t).data, isPySpace c = true → c = ' ') ∧
      pyStrip (clean_section_title t) = clean_section_title t) ∧
    (∀ (docs : List Doc) (S : ISection) (q : Nat × Doc), S ∈ iSections docs →
      S.cons.getLast? = some q → S.sec.type = "paragraph" →
      q.2.section_title = none → S.sec.title = "Paragraph") := by
  refine ⟨⟨by decide, by decide⟩, ?_, ?_, ?_⟩
  · intro t h1 h2
    rw [clean_section_title, if_neg (by simp [h1, h2])]
  · intro t h1 h2
    have hd : (clean_section_title t).data = collapseWsAux false (pyStripL t.data) := by
      rw [clean_section_title, if_neg (by simp [h1, h2])]
      rfl
    refine ⟨?_, ?_, clean_section_title_trimmed t⟩
    · rw [hd]
      exact collapseWsAux_chain _ false
    · rw [hd]
      exact fun c hc => collapseWsAux_space_mem _ false c hc
  · intro docs S q hS hq hty hnone
    obtain ⟨_, _, hpara, _⟩ := iSections_SecOK docs S hS
    obtain ⟨q', hq', _, htitle⟩ := hpara hty
    rw [hq'] at hq
    injection hq with hq
    subst hq
    rw [htitle, hnone]
    decide

/-- C2 witness: the amended claim applied to a messy hint and to a
hint-less pipeline run. -/
theorem C2_witness :
    clean_section_title "  A   B " = collapseWs (pyStrip "  A   B ") ∧
    pyStrip (clean_section_title "  A   B ") = clean_section_title "  A   B " ∧
    (iSections [⟨some "1", some "1", none, "Hello world"⟩]).map (fun S => S.sec.title) =
      ["Paragraph"] :=
  ⟨C2_title_amended.2.1 _ (by decide) (by decide),
   (C2_title_amended.2.2.1 "  A   B " (by decide) (by decide)).2.2, by decide⟩

/-- C4 (confirmed): the continuation test is false with no open previous
paragraph, and with an open one it is true exactly when the fragment is on
the same page with the successor paragraph index, or on the next page with
paragraph index 1; consequently the fragments (page 3, para 5, "A") and
(page 4, para 1, "B") merge into one Section with content `"A B"`. -/
theorem C4_continuation :
    (∀ md : Doc, should_continue_paragraph md none = false) ∧
    (∀ (md : Doc) (buf : ParaBuf),
      should_continue_paragraph md (some buf) = true ↔
        ((extract_page_number (md.pages.getD "0") =
            extract_page_number (buf.metadata.pages.getD "0") ∧
          (pyInt (md.para.getD "0")).getD 0 =
            (pyInt (buf.metadata.para.getD "0")).getD 0 + 1) ∨
         (extract_page_number (md.pages.getD "0") =
            extract_page_number (buf.metadata.pages.getD "0") + 1 ∧
          (pyInt (md.para.getD "0")).getD 0 = 1))) ∧
    process_sequential_sections
        [⟨some "3", some "5", none, "A"⟩, ⟨some "4", some "1", none, "B"⟩] =
      some [⟨"Paragraph", "A B", 4, "1", 3, "paragraph"⟩] := by
  refine ⟨fun md => rfl, ?_, by decide⟩
  intro md buf
  unfold should_continue_paragraph
  dsimp only
  split_ifs with hA hB
  · exact iff_of_true rfl (Or.inl hA)
  · exact iff_of_true rfl (Or.inr hB)
  · refine iff_of_false (by simp) ?_
    rintro (h | h)
    · exact hA h
    · exact hB h

/-- C4 witness: the continuation test at a concrete same-page successor. -/
theorem C4_witness :
    should_continue_paragraph ⟨some "3", some "2", none, "x"⟩
      (some ⟨⟨some "3", some "1", none, "y"⟩, ["y"]⟩) = true :=
  (C4_continuation.2.1 _ _).mpr (Or.inl (by decide))

/-- C7: counterexample to the claim as stated.  The text `" 1"` has one
non-blank line which neither contains a pipe nor starts with a digit (it
starts with a blank), so the claimed fraction is 0 and the spec predicate is
false; yet the code counts the line via `re.match(r'^\s*\d+', ...)` and
returns true. -/
theorem C7_counterexample :
    is_purely_tabular " 1" = true ∧ purelyTabularSpec " 1" = false := by
  decide

/-- C7 (amended): `is_purely_tabular` is true exactly when the number of
pipe-containing lines plus the number of lines beginning with optional
whitespace followed by a digit (a line may be counted twice) exceeds 0.7
times the number of non-blank lines, or there are no non-blank lines at
all. -/
theorem C7_tabular_amended (content : String) :
    is_purely_tabular content = true ↔
      (((splitNl content.data).countP (fun line => decide (pyStripL line ≠ []))) = 0 ∨
       10 * ((splitNl content.data).countP (fun line => line.contains '|') +
         (splitNl content.data).countP startsDigitAfterSpace) >
         7 * ((splitNl content.data).countP (fun line => decide (pyStripL line ≠ [])))) := by
  unfold is_purely_tabular
  simp only [List.countP_eq_length_filter]
  by_cases h0 : ((splitNl content.data).filter
      (fun line => decide (pyStripL line ≠ []))).length = 0
  · rw [if_pos h0]
    exact iff_of_true rfl (Or.inl h0)
  · rw [if_neg h0]
    rw [decide_eq_true_eq]
    constructor
    · exact fun h => Or.inr h
    · rintro (h | h)
      · exact absurd h h0
      · exact h

/-- C10 (confirmed): two fragments that differ in `paragraph_index` (`"2"`
parses to 2, `"2_3"` parses to 23 under CPython underscore grouping) and in
full text nevertheless concatenate to the same underscore-joined identity
key `"1_2_3_QQQQQ"`, so the second is dropped as a duplicate and only one
Section is emitted. -/
theorem C10_key_collision :
    pyInt "2" ≠ pyInt "2_3" ∧
    ("3_QQQQQ" : String) ≠ "QQQQQ" ∧
    section_id ⟨some "1", some "2", none, "3_QQQQQ"⟩ (pyStrip "3_QQQQQ") =
      section_id ⟨some "1", some "2_3", none, "QQQQQ"⟩ (pyStrip "QQQQQ") ∧
    (iProcessAll [⟨some "1", some "2", none, "3_QQQQQ"⟩,
      ⟨some "1", some "2_3", none, "QQQQQ"⟩]).dups = [1] ∧
    process_sequential_sections [⟨some "1", some "2", none, "3_QQQQQ"⟩,
      ⟨some "1", some "2_3", none, "QQQQQ"⟩] =
      some [⟨"Paragraph", "3_QQQQQ", 1, "2", 7, "paragraph"⟩] := by
  refine ⟨by decide, by decide, by decide, by decide, by decide⟩

/-- C3: counterexample to the claim as stated.  Two merged continuation
fragments (cross-page) produce a Section whose `page` is 4 and whose title
comes from the hint `"Beta"` of the second (last) constituent fragment — not
page 3 / `"Alpha"` of the first constituent, as claimed: on every appended
continuation the buffer's metadata is overwritten with the current
fragment's metadata. -/
theorem C3_counterexample :
    iSections [⟨some "3", some "5", some "Alpha", "Hello there"⟩,
      ⟨some "4", some "1", some "Beta", "more text"⟩] =
      [⟨⟨"Beta", "Hello there more text", 4, "1", 21, "paragraph"⟩,
        [(0, ⟨some "3", some "5", some "Alpha", "Hello there"⟩),
         (1, ⟨some "4", some "1", some "Beta", "more text"⟩)]⟩] ∧
    extract_page_number "3" = 3 ∧ clean_section_title "Alpha" = "Alpha" ∧
    (4 : Nat) ≠ 3 ∧ ("Beta" : String) ≠ "Alpha" := by
  refine ⟨by decide, by decide, by decide, by decide, by decide⟩

/-- C3 (amended): for every emitted paragraph Section, the `page` field and
the title are derived from the Section's LAST constituent fragment (the
open buffer keeps the metadata of the most recently appended fragment). -/
theorem C3_last_fragment (docs : List Doc) (S : ISection) (q : Nat × Doc)
    (hS : S ∈ iSections docs) (hq : S.cons.getLast? = some q)
    (hty : S.sec.type = "paragraph") :
    S.sec.page = extract_page_number (q.2.pages.getD "0") ∧
    S.sec.title = clean_section_title (q.2.section_title.getD "Paragraph") := by
  obtain ⟨_, _, hpara, _⟩ := iSections_SecOK docs S hS
  obtain ⟨q', hq', hpage, htitle⟩ := hpara hty
  rw [hq'] at hq
  injection hq with hq
  subst hq
  exact ⟨hpage, htitle⟩

/-- C3 witness: the amended claim at the concrete two-fragment merge. -/
theorem C3_witness :
    (4 : Nat) = extract_page_number "4" ∧
    ("Beta" : String) = clean_section_title "Beta" :=
  C3_last_fragment
    [⟨some "3", some "5", some "Alpha", "Hello there"⟩,
     ⟨some "4", some "1", some "Beta", "more text"⟩]
    ⟨⟨"Beta", "Hello there more text", 4, "1", 21, "paragraph"⟩,
      [(0, ⟨some "3", some "5", some "Alpha", "Hello there"⟩),
       (1, ⟨some "4", some "1", some "Beta", "more text"⟩)]⟩
    (1, ⟨some "4", some "1", some "Beta", "more text"⟩)
    (by decide) (by decide) rfl

/-- C5 (confirmed): a fragment whose identity key already occurred for some
earlier fragment (with nonempty text) of the same sorted pass is recorded as
a duplicate and contributes to no emitted Section — even when the two texts
differ beyond character 50, since the key only holds `text[:50]`. -/
theorem C5_dedup (docs : List Doc) (l1 l2 l3 : List (Nat × Doc)) (i j : Nat)
    (di dj : Doc)
    (hdecomp : (sortDocs docs).enum = l1 ++ (i, di) :: l2 ++ (j, dj) :: l3)
    (hne1 : pyStrip di.page_content ≠ "") (hne2 : pyStrip dj.page_content ≠ "")
    (hid : section_id dj (pyStrip dj.page_content) =
      section_id di (pyStrip di.page_content)) :
    j ∈ (iProcessAll docs).dups ∧
    ∀ S ∈ iSections docs, j ∉ S.cons.map Prod.fst := by
  have hsplit : (sortDocs docs).enum = ((l1 ++ [(i, di)]) ++ l2) ++ (j, dj) :: l3 := by
    rw [hdecomp]
    simp
  have hrun : iProcessAll docs =
      l3.foldl iStep (iStep (l2.foldl iStep
        ((l1 ++ [(i, di)]).foldl iStep ⟨[], none, [], [], [], []⟩)) (j, dj)) := by
    rw [iProcessAll, hsplit, List.foldl_append, List.foldl_append, List.foldl_cons]
  have hinv1 : PassInv (l1 ++ [(i, di)])
      ((l1 ++ [(i, di)]).foldl iStep ⟨[], none, [], [], [], []⟩) := by
    have h := passInv_foldl (l1 ++ [(i, di)]) [] _ passInv_init
    simpa using h
  have hkey : section_id di (pyStrip di.page_content) ∈
      ((l1 ++ [(i, di)]).foldl iStep ⟨[], none, [], [], [], []⟩).seen :=
    (hinv1.seen_iff _).mpr ⟨(i, di), by simp, hne1, rfl⟩
  have hkey2 : section_id di (pyStrip di.page_content) ∈
      (l2.foldl iStep ((l1 ++ [(i, di)]).foldl iStep ⟨[], none, [], [], [], []⟩)).seen :=
    foldl_seen_mono l2 _ _ hkey
  have hstep : iStep (l2.foldl iStep
      ((l1 ++ [(i, di)]).foldl iStep ⟨[], none, [], [], [], []⟩)) (j, dj) =
      { l2.foldl iStep ((l1 ++ [(i, di)]).foldl iStep ⟨[], none, [], [], [], []⟩) with
        dups := (l2.foldl iStep
          ((l1 ++ [(i, di)]).foldl iStep ⟨[], none, [], [], [], []⟩)).dups ++ [j] } :=
    iStep_dup _ (j, dj) hne2 (by rw [hid]; exact hkey2)
  have hjf : j ∈ (iProcessAll docs).dups := by
    rw [hrun]
    refine foldl_dups_mono l3 _ j ?_
    rw [hstep]
    exact List.mem_append_right _ (by simp)
  refine ⟨hjf, ?_⟩
  intro S hS hmem
  have hjm : (j, dj) ∈ (sortDocs docs).enum := by
    rw [hdecomp]
    simp
  have hcnt := bucket_count docs j dj hjm
  have hdupc : 0 < ((iProcessAll docs).dups).count j := List.count_pos_iff.mpr hjf
  have hflatc : ((((iSections docs).map ISection.cons).flatten).map Prod.fst).count j = 0 := by
    omega
  rcases List.mem_map.mp hmem with ⟨p, hp, hpj⟩
  have hjin : j ∈ (((iSections docs).map ISection.cons).flatten).map Prod.fst := by
    rw [← hpj]
    exact List.mem_map_of_mem Prod.fst
      (List.mem_flatten_of_mem (List.mem_map_of_mem ISection.cons hS) hp)
  exact absurd hjin (List.count_eq_zero.mp hflatc)

/-- C5 witness: two same-position fragments sharing their first 50
characters but differing beyond; the second is recorded as a duplicate. -/
theorem C5_witness :
    1 ∈ (iProcessAll
      [⟨some "1", some "2", none, "aaaaaaaaaaaaaaaaaaaaaaaaaaaaaaaaaaaaaaaaaaaaaaaaaaXXXXXXXXXX"⟩,
       ⟨some "1", some "2", none, "aaaaaaaaaaaaaaaaaaaaaaaaaaaaaaaaaaaaaaaaaaaaaaaaaaYYYYYYYYYY"⟩]).dups :=
  (C5_dedup
    [⟨some "1", some "2", none, "aaaaaaaaaaaaaaaaaaaaaaaaaaaaaaaaaaaaaaaaaaaaaaaaaaXXXXXXXXXX"⟩,
     ⟨some "1", some "2", none, "aaaaaaaaaaaaaaaaaaaaaaaaaaaaaaaaaaaaaaaaaaaaaaaaaaYYYYYYYYYY"⟩]
    [] [] [] 0 1
    ⟨some "1", some "2", none, "aaaaaaaaaaaaaaaaaaaaaaaaaaaaaaaaaaaaaaaaaaaaaaaaaaXXXXXXXXXX"⟩
    ⟨some "1", some "2", none, "aaaaaaaaaaaaaaaaaaaaaaaaaaaaaaaaaaaaaaaaaaaaaaaaaaYYYYYYYYYY"⟩
    (by decide) (by decide) (by decide) (by decide)).1

theorem processDoc_nonpara_incl (st : PassState) (doc : Doc)
    (h1 : pyStrip doc.page_content ≠ "")
    (h2 : section_id doc (pyStrip doc.page_content) ∉ st.seen_sections)
    (h3 : determine_section_type doc (pyStrip doc.page_content) ≠ "paragraph")
    (h6 : should_include_content (determine_section_type doc (pyStrip doc.page_content))
      (pyStrip doc.page_content) = true) :
    processDoc st doc = { st with
      sequential_sections := st.sequential_sections ++ flushBuf st.current_paragraph ++
        [mkNonParaSection doc (pyStrip doc.page_content)
          (determine_section_type doc (pyStrip doc.page_content))]
      current_paragraph := none
      seen_sections := st.seen_sections ++ [section_id doc (pyStrip doc.page_content)] } := by
  simp [processDoc, h1, h2, h3, h6]

theorem processDoc_nonpara_excl (st : PassState) (doc : Doc)
    (h1 : pyStrip doc.page_content ≠ "")
    (h2 : section_id doc (pyStrip doc.page_content) ∉ st.seen_sections)
    (h3 : determine_section_type doc (pyStrip doc.page_content) ≠ "paragraph")
    (h6 : ¬ should_include_content (determine_section_type doc (pyStrip doc.page_content))
      (pyStrip doc.page_content) = true) :
    processDoc st doc = { st with
      sequential_sections := st.sequential_sections ++ flushBuf st.current_paragraph
      current_paragraph := none
      seen_sections := st.seen_sections ++ [section_id doc (pyStrip doc.page_content)] } := by
  simp [processDoc, h1, h2, h3, h6]

/-- C6 (confirmed): a table- or figure-classified fragment first closes and
emits any open paragraph buffer and is then emitted as its own Section
exactly when its stripped text is longer than 50 characters and not purely
tabular — otherwise it is dropped entirely (no Section of its own); a
header-classified fragment always closes the buffer and is emitted as its
own Section. -/
theorem C6_table_figure_header (st : PassState) (doc : Doc)
    (hne : pyStrip doc.page_content ≠ "")
    (hnew : section_id doc (pyStrip doc.page_content) ∉ st.seen_sections) :
    ((determine_section_type doc (pyStrip doc.page_content) = "table" ∨
      determine_section_type doc (pyStrip doc.page_content) = "figure") →
      processDoc st doc = { st with
        sequential_sections := st.sequential_sections ++ flushBuf st.current_paragraph ++
          (if (pyStrip doc.page_content).length > 50 ∧
              is_purely_tabular (pyStrip doc.page_content) = false then
            [mkNonParaSection doc (pyStrip doc.page_content)
              (determine_section_type doc (pyStrip doc.page_content))]
          else [])
        current_paragraph := none
        seen_sections := st.seen_sections ++ [section_id doc (pyStrip doc.page_content)] }) ∧
    (determine_section_type doc (pyStrip doc.page_content) = "header" →
      processDoc st doc = { st with
        sequential_sections := st.sequential_sections ++ flushBuf st.current_paragraph ++
          [mkNonParaSection doc (pyStrip doc.page_content) "header"]
        current_paragraph := none
        seen_sections := st.seen_sections ++ [section_id doc (pyStrip doc.page_content)] }) := by
  constructor
  · intro hty
    have h3 : determine_section_type doc (pyStrip doc.page_content) ≠ "paragraph" := by
      rcases hty with h | h <;> rw [h] <;> decide
    have hinc := should_include_content_table_figure _ (pyStrip doc.page_content) hty
    rw [pyStrip_idem doc.page_content] at hinc
    by_cases hcond : (pyStrip doc.page_content).length > 50 ∧
        is_purely_tabular (pyStrip doc.page_content) = false
    · rw [if_pos hcond]
      refine processDoc_nonpara_incl st doc hne hnew h3 ?_
      rw [hinc]
      simp only [Bool.and_eq_true, decide_eq_true_eq, Bool.not_eq_true']
      exact ⟨hcond.1, hcond.2⟩
    · rw [if_neg hcond, List.append_nil]
      refine processDoc_nonpara_excl st doc hne hnew h3 ?_
      rw [hinc]
      simp only [Bool.and_eq_true, decide_eq_true_eq, Bool.not_eq_true']
      exact fun habs => hcond habs
  · intro hty
    have h3 : determine_section_type doc (pyStrip doc.page_content) ≠ "paragraph" := by
      rw [hty]
      decide
    have h6 : should_include_content (determine_section_type doc (pyStrip doc.page_content))
        (pyStrip doc.page_content) = true := by
      rw [hty]
      exact should_include_content_header _
    rw [processDoc_nonpara_incl st doc hne hnew h3 h6, hty]

/-- C6 witness: a table fragment with substantial non-tabular text closes
the open paragraph buffer and is emitted after it. -/
theorem C6_witness :
    processDoc ⟨[], some ⟨⟨some "1", some "1", none, "open para"⟩, ["open para"]⟩, ["k"]⟩
      ⟨some "1", some "3", none,
        "| A | B |\nThis is a mostly textual line describing things\nAnother textual line here also long"⟩ =
    ⟨[⟨"Paragraph", "open para", 1, "1", 9, "paragraph"⟩,
      ⟨"Unknown",
        "| A | B |\nThis is a mostly textual line describing things\nAnother textual line here also long",
        1, "3", 93, "table"⟩], none,
      ["k", "1_3_| A | B |\nThis is a mostly textual line describing"]⟩ := by
  have h := (C6_table_figure_header
    ⟨[], some ⟨⟨some "1", some "1", none, "open para"⟩, ["open para"]⟩, ["k"]⟩
    ⟨some "1", some "3", none,
      "| A | B |\nThis is a mostly textual line describing things\nAnother textual line here also long"⟩
    (by decide) (by decide)).1 (Or.inl (by decide))
  rw [h]
  decide

theorem flat_fst (docs : List Doc) :
    ((iSections docs).map (fun S => S.cons.map Prod.fst)).flatten =
      (((iSections docs).map ISection.cons).flatten).map Prod.fst := by
  rw [List.map_flatten, List.map_map]
  rfl

theorem sections_countP_eq (docs : List Doc) (i : Nat) :
    (iSections docs).countP (fun S => decide (i ∈ S.cons.map Prod.fst)) =
      ((iSections docs).map (fun S => S.cons.map Prod.fst)).countP
        (fun L => decide (i ∈ L)) := by
  rw [List.countP_map]
  rfl

/-- C8 (confirmed): over the sorted pass, the emitted Sections' constituent
positions together with the skipped-empty, duplicate and table/figure-noise
buckets form a permutation of all positions (each fragment accounted exactly
once); a fragment with nonempty stripped text lands in exactly one Section
or is dropped as a duplicate or as low-content table/figure noise; a
fragment with empty stripped text is skipped entirely (it lands among the
empties, contributes to no Section, is no duplicate and no noise); every
duplicate has an earlier same-key fragment with nonempty text; noise is
exactly the non-included table/figure content; and the deduplication set
only ever receives keys of fragments with nonempty text. -/
theorem C8_accounting (docs : List Doc) :
    ((((iSections docs).map ISection.cons).flatten.map Prod.fst ++
      (iProcessAll docs).empties ++ (iProcessAll docs).dups ++
      (iProcessAll docs).noise).Perm (((sortDocs docs).enum).map Prod.fst)) ∧
    (∀ p ∈ (sortDocs docs).enum, pyStrip p.2.page_content ≠ "" →
      ((iSections docs).countP (fun S => decide (p.1 ∈ S.cons.map Prod.fst)) +
        ((iProcessAll docs).dups).count p.1 +
        ((iProcessAll docs).noise).count p.1 = 1) ∧
      p.1 ∉ (iProcessAll docs).empties) ∧
    (∀ p ∈ (sortDocs docs).enum, pyStrip p.2.page_content = "" →
      p.1 ∈ (iProcessAll docs).empties ∧
      (iSections docs).countP (fun S => decide (p.1 ∈ S.cons.map Prod.fst)) = 0 ∧
      p.1 ∉ (iProcessAll docs).dups ∧ p.1 ∉ (iProcessAll docs).noise) ∧
    (∀ i ∈ (iProcessAll docs).dups, ∃ l1 e l2 d l3,
      (sortDocs docs).enum = l1 ++ e :: l2 ++ (i, d) :: l3 ∧
      pyStrip e.2.page_content ≠ "" ∧ pyStrip d.page_content ≠ "" ∧
      section_id e.2 (pyStrip e.2.page_content) =
        section_id d (pyStrip d.page_content)) ∧
    (∀ i ∈ (iProcessAll docs).noise, ∃ p ∈ (sortDocs docs).enum, p.1 = i ∧
      (determine_section_type p.2 (pyStrip p.2.page_content) = "table" ∨
       determine_section_type p.2 (pyStrip p.2.page_content) = "figure") ∧
      should_include_content (determine_section_type p.2 (pyStrip p.2.page_content))
        (pyStrip p.2.page_content) = false) ∧
    (∀ k ∈ (iProcessAll docs).seen, ∃ p ∈ (sortDocs docs).enum,
      pyStrip p.2.page_content ≠ "" ∧
      section_id p.2 (pyStrip p.2.page_content) = k) := by
  have inv := passInv_run docs
  have hnd := List.nodup_enum_map_fst (sortDocs docs)
  refine ⟨iSections_perm docs, ?_, ?_, inv.dups_spec, ?_, ?_⟩
  · intro p hp hne
    have hcnt := bucket_count docs p.1 p.2 hp
    have hemp : p.1 ∉ (iProcessAll docs).empties := by
      intro hmem
      rw [inv.empties_eq] at hmem
      rcases List.mem_map.mp hmem with ⟨q, hq, hq1⟩
      have hqP := List.mem_filter.mp hq
      have hqe : pyStrip q.2.page_content = "" := by simpa using hqP.2
      have hqp : q = p :=
        List.inj_on_of_nodup_map hnd hqP.1 hp hq1
      rw [hqp] at hqe
      exact hne hqe
    refine ⟨?_, hemp⟩
    have hec : ((iProcessAll docs).empties).count p.1 = 0 := List.count_eq_zero.mpr hemp
    rw [hec] at hcnt
    rw [sections_countP_eq]
    have hFle : ((((iSections docs).map ISection.cons).flatten).map Prod.fst).count p.1 ≤ 1 := by
      omega
    rcases Nat.le_one_iff_eq_zero_or_eq_one.mp hFle with h | h
    · rw [countP_of_flatten_count_zero _ _ (by rw [flat_fst]; exact h)]
      omega
    · rw [countP_of_flatten_count_one _ _ (by rw [flat_fst]; exact h)]
      omega
  · intro p hp hpe
    have hcnt := bucket_count docs p.1 p.2 hp
    have hemp : p.1 ∈ (iProcessAll docs).empties := by
      rw [inv.empties_eq]
      exact List.mem_map_of_mem Prod.fst (List.mem_filter.mpr ⟨hp, by simp [hpe]⟩)
    have he1 : 0 < ((iProcessAll docs).empties).count p.1 := List.count_pos_iff.mpr hemp
    refine ⟨hemp, ?_, ?_, ?_⟩
    · rw [sections_countP_eq]
      exact countP_of_flatten_count_zero _ _ (by rw [flat_fst]; omega)
    · exact List.count_eq_zero.mp (by omega)
    · exact List.count_eq_zero.mp (by omega)
  · intro i hi
    obtain ⟨p, hp, hpi, hty, hinc, _⟩ := inv.noise_spec i hi
    exact ⟨p, hp, hpi, hty, hinc⟩
  · intro k hk
    exact (inv.seen_iff k).mp hk

/-- C8 witness: a single nonempty fragment is accounted in exactly one
Section and none of the drop buckets. -/
theorem C8_witness :
    ((iSections [⟨some "1", some "1", none, "Hello"⟩]).countP
      (fun S => decide ((0 : Nat) ∈ S.cons.map Prod.fst)) +
      ((iProcessAll [⟨some "1", some "1", none, "Hello"⟩]).dups).count 0 +
      ((iProcessAll [⟨some "1", some "1", none, "Hello"⟩]).noise).count 0 = 1) ∧
    (0 : Nat) ∉ (iProcessAll [⟨some "1", some "1", none, "Hello"⟩]).empties :=
  (C8_accounting [⟨some "1", some "1", none, "Hello"⟩]).2.1
    (0, ⟨some "1", some "1", none, "Hello"⟩) (by decide) (by decide)

/-- C9 (confirmed): every emitted Section's constituents form a nonempty
order-preserving subsequence of the sorted pass (its content is their texts
joined in that order), and for Sections S1 before S2 the minimum
`(page, paragraph_index)` key over S1's constituents is lexicographically at
most the minimum over S2's. -/
theorem C9_order (docs : List Doc) :
    (∀ S ∈ iSections docs, S.cons ≠ [] ∧
      S.cons.Sublist ((sortDocs docs).enum) ∧
      S.sec.content = String.intercalate " "
        (S.cons.map (fun p => pyStrip p.2.page_content))) ∧
    (∀ (n m : Nat) (hn : n < (iSections docs).length)
      (hm : m < (iSections docs).length), n < m → ∀ k1 k2,
      keyMin (((iSections docs).get ⟨n, hn⟩).cons.map (fun p => keyOf p.2)) = some k1 →
      keyMin (((iSections docs).get ⟨m, hm⟩).cons.map (fun p => keyOf p.2)) = some k2 →
      keyLE k1 k2) := by
  constructor
  · intro S hS
    obtain ⟨hne, hcontent, _, _⟩ := iSections_SecOK docs S hS
    refine ⟨hne, ?_, hcontent⟩
    exact (List.sublist_flatten_of_mem
      (List.mem_map_of_mem ISection.cons hS)).trans (iSections_sublist docs)
  · intro n m hn hm hnm k1 k2 hk1 hk2
    have hcross : ((iSections docs).map ISection.cons).Pairwise
        (fun c1 c2 => ∀ p ∈ c1, ∀ q ∈ c2, docLE p.2 q.2) := by
      have hpw : (((iSections docs).map ISection.cons).flatten).Pairwise
          (fun a b => docLE a.2 b.2) :=
        List.Pairwise.sublist (iSections_sublist docs) (enum_pairwise_key docs)
      exact ((List.pairwise_flatten).mp hpw).2
    have hrel := (List.pairwise_iff_getElem.mp hcross) n m
      (by simpa using hn) (by simpa using hm) hnm
    rw [List.getElem_map, List.getElem_map] at hrel
    rcases List.mem_map.mp (keyMin_mem _ _ hk1) with ⟨p, hp, hpk⟩
    rcases List.mem_map.mp (keyMin_mem _ _ hk2) with ⟨q, hq, hqk⟩
    have hle := hrel p hp q hq
    unfold docLE at hle
    rw [hpk, hqk] at hle
    exact hle

/-- C9 witness: a two-section run (paragraph then header) with ordered
minimum keys. -/
theorem C9_witness : keyLE (1, 1) (2, 1) :=
  (C9_order [⟨some "1", some "1", none, "Hello friend"⟩,
    ⟨some "2", some "1", some "Intro", "Intro"⟩]).2 0 1
    (by decide) (by decide) (by decide) (1, 1) (2, 1) (by decide) (by decide)

/-- C7 witness: a text with two digit-and-pipe lines out of three non-blank
lines is purely tabular under the amended double-counting rule. -/
theorem C7_witness : is_purely_tabular "1|\n2|\na" = true :=
  (C7_tabular_amended "1|\n2|\na").mpr (Or.inr (by decide))
